import Mathlib

/-!
Verification of the 2048 AI engine bridge (`ai_bridge.cpp`).

The 4x4 board is a 64-bit value made of 16 nibbles (4-bit tile ranks),
nibble `i` holding the rank of cell `(row = i / 4, col = i % 4)`.
Machine integers are embedded as `Nat` with explicit `% 2 ^ 64` /
`% 2 ^ 16` truncation exactly where the C code's fixed-width types
truncate.  All definitions are executable.  Row-level facts are settled
symbolically: a loop invariant identifies the table-construction slide
loop with a structurally recursive compact-and-merge pass, and
board-level facts are proven by decomposing a 64-bit board into its 16
nibbles (`ofDig 4`) or its 4 rows (`ofDig 16`).
-/

set_option maxRecDepth 100000

namespace Ai2048

/-! ## Generic digit-list toolkit -/

/-- Value of a little-endian list of `w`-bit digits. -/
def ofDig (w : Nat) : List Nat → Nat
  | [] => 0
  | d :: l => d + 2 ^ w * ofDig w l

/-- Digit-wise zip of two digit lists, padding the shorter list with zeros. -/
def dzip (f : Nat → Nat → Nat) : List Nat → List Nat → List Nat
  | [], m => m.map (fun x => f 0 x)
  | a :: l, [] => f a 0 :: dzip f l []
  | a :: l, b :: m => f a b :: dzip f l m

/-- The `k` little-endian `w`-bit digits of a number. -/
def toDig (w : Nat) : Nat → Nat → List Nat
  | 0, _ => []
  | k + 1, b => b % 2 ^ w :: toDig w k (b / 2 ^ w)

/-! ## Source embedding: board codec (`ai_bridge.cpp`) -/

def ROW_MASK : Nat := 0xFFFF

def COL_MASK : Nat := 0x000F000F000F000F

/-- Embeds `unpack_col`: replicate a 16-bit row into a column-shaped 64-bit value. -/
def unpack_col (row : Nat) : Nat :=
  (row ||| (row <<< 12) ||| (row <<< 24) ||| (row <<< 36)) &&& COL_MASK

/-- Embeds `reverse_row`; the final `% 2 ^ 16` is the conversion of the C
`int` expression back to the 16-bit `row_t` return type. -/
def reverse_row (row : Nat) : Nat :=
  ((row >>> 12) ||| ((row >>> 4) &&& 0x00F0) ||| ((row <<< 4) &&& 0x0F00) |||
    (row <<< 12)) % 2 ^ 16

/-- Embeds `transpose`: swap rows and columns of the 4x4 board via masked shifts. -/
def transpose (x : Nat) : Nat :=
  let a1 := x &&& 0xF0F00F0FF0F00F0F
  let a2 := x &&& 0x0000F0F00000F0F0
  let a3 := x &&& 0x0F0F00000F0F0000
  let a := a1 ||| (a2 <<< 12) ||| (a3 >>> 12)
  let b1 := a &&& 0xFF00FF0000FF00FF
  let b2 := a &&& 0x00FF00FF00000000
  let b3 := a &&& 0x00000000FF00FF00
  b1 ||| (b2 >>> 24) ||| (b3 <<< 24)

/-- Embeds `count_empty`: bit-trick count of the zero nibbles.  The C `~x` on
`uint64_t` is xor with the all-ones 64-bit mask; the `% 2 ^ 64` mark the
64-bit wrap-around of the C additions. -/
def count_empty (x : Nat) : Nat :=
  let x1 := x ||| ((x >>> 2) &&& 0x3333333333333333)
  let x2 := x1 ||| (x1 >>> 1)
  let x3 := (x2 ^^^ 0xFFFFFFFFFFFFFFFF) &&& 0x1111111111111111
  let x4 := (x3 + (x3 >>> 32)) % 2 ^ 64
  let x5 := (x4 + (x4 >>> 16)) % 2 ^ 64
  let x6 := (x5 + (x5 >>> 8)) % 2 ^ 64
  let x7 := (x6 + (x6 >>> 4)) % 2 ^ 64
  x7 &&& 0xf

/-- Embeds the `bitset` accumulation loop of `count_distinct_tiles`:
`while (board) { bitset |= 1 << (board & 0xf); board >>= 4; }`.
The loop shifts `board` right by 4 bits per iteration, so on the 64-bit
domain it runs at most 16 times; `fuel = 16` therefore realizes the
`while` loop exactly (`tileBitsetF_fuel` below). -/
def tileBitsetF : Nat → Nat → Nat → Nat
  | 0, _, bitset => bitset
  | fuel + 1, board, bitset =>
    if board = 0 then bitset
    else tileBitsetF fuel (board >>> 4) (bitset ||| (1 <<< (board &&& 0xf)))

/-- The `bitset` computed by `count_distinct_tiles` for a 64-bit board. -/
def tileBitset (board : Nat) : Nat := tileBitsetF 16 board 0

/-- Embeds the Kernighan popcount loop of `count_distinct_tiles`:
`while (bitset) { bitset &= bitset - 1; count++; }`.  Each iteration
strictly decreases `bitset`, so `fuel = bitset` iterations always reach 0
and the fuel never runs out (`popcountKF_fuel` below). -/
def popcountKF : Nat → Nat → Nat
  | 0, _ => 0
  | fuel + 1, bitset =>
    if bitset = 0 then 0
    else popcountKF fuel (bitset &&& (bitset - 1)) + 1

/-- The `count` returned by the popcount loop of `count_distinct_tiles`. -/
def popcountK (bitset : Nat) : Nat := popcountKF bitset bitset

/-- Embeds `count_distinct_tiles`: distinct tile values via a bitset,
dropping the rank-0 (empty) bit. -/
def count_distinct_tiles (board : Nat) : Nat :=
  popcountK (tileBitset board >>> 1)

/-! ## Source embedding: the per-row move loop of `do_init_tables` -/

/-- Recursion core of `findNZ`, counting down the remaining indices
`4 - j`; when the count is 0 (`j >= 4`) the scan failed and returns 4. -/
def findNZGo (line : List Nat) : Nat → Nat → Nat
  | 0, _ => 4
  | left + 1, j => if line.getD j 0 ≠ 0 then j else findNZGo line left (j + 1)

/-- Embeds the inner scan `for (j = i + 1; j < 4; ++j) if (line[j] != 0) break;`
returning the first index `>= j` holding a nonzero cell, or 4. -/
def findNZ (line : List Nat) (j : Nat) : Nat := findNZGo line (4 - j) j

/-- Embeds the `Execute a move to the left` loop of `do_init_tables` on the
4-cell `line` array.  The C loop re-runs the same index after a pull
(`i--` followed by the `for` increment), advances after a merge or a
mismatch, and exits when no nonzero cell remains to the right (`j == 4`)
or `i` reaches 3.  `fuel` bounds the iteration count; the loop invariant
`moveLoop_invariant` below shows fuel 32 always suffices. -/
def moveLoop (fuel : Nat) (line : List Nat) (i : Nat) : Option (List Nat) :=
  match fuel with
  | 0 => none
  | fuel + 1 =>
    if i < 3 then
      let j := findNZ line (i + 1)
      if j = 4 then some line
      else if line.getD i 0 = 0 then
        moveLoop fuel ((line.set i (line.getD j 0)).set j 0) i
      else if line.getD i 0 = line.getD j 0 then
        let line2 := if line.getD i 0 ≠ 0xf then line.set i (line.getD i 0 + 1) else line
        moveLoop fuel (line2.set j 0) (i + 1)
      else moveLoop fuel line (i + 1)
    else some line

/-- Embeds `unsigned line[4] = { (row >> 0) & 0xf, ... }`. -/
def toLine (row : Nat) : List Nat :=
  [(row >>> 0) &&& 0xf, (row >>> 4) &&& 0xf, (row >>> 8) &&& 0xf, (row >>> 12) &&& 0xf]

/-- Embeds `result = (line[0] << 0) | (line[1] << 4) | (line[2] << 8) | (line[3] << 12)`. -/
def packLine (l : List Nat) : Nat :=
  (l.getD 0 0 <<< 0) ||| (l.getD 1 0 <<< 4) ||| (l.getD 2 0 <<< 8) ||| (l.getD 3 0 <<< 12)

/-- The `result` row computed by `do_init_tables` for a given `row`:
one slide-left-and-merge pass. -/
def row_move_result (row : Nat) : Nat :=
  packLine ((moveLoop 32 (toLine row) 0).getD (toLine row))

/-- Entry of `row_left_table` at index `row`: `row ^ result`. -/
def row_left_table (row : Nat) : Nat := row ^^^ row_move_result row

/-- Entry of `row_right_table` at index `s`.  `do_init_tables` writes
`row_right_table[rev_row] = rev_row ^ rev_result`; since `reverse_row` is an
involution on 16-bit rows, the entry at `s` is obtained from
`row = reverse_row s` (see `row_right_table_construction`). -/
def row_right_table (s : Nat) : Nat :=
  s ^^^ reverse_row (row_move_result (reverse_row s))

/-- Entry of `col_up_table` at index `row`: `unpack_col(row) ^ unpack_col(result)`. -/
def col_up_table (row : Nat) : Nat :=
  unpack_col row ^^^ unpack_col (row_move_result row)

/-- Entry of `col_down_table` at index `s`, obtained like `row_right_table`
from `row = reverse_row s`. -/
def col_down_table (s : Nat) : Nat :=
  unpack_col s ^^^ unpack_col (reverse_row (row_move_result (reverse_row s)))

/-- The right-move row action: reverse, slide left, reverse back. -/
def revMoveRow (s : Nat) : Nat := reverse_row (row_move_result (reverse_row s))

/-! ## Source embedding: move execution -/

/-- Embeds `execute_move_0` (up). -/
def execute_move_0 (board : Nat) : Nat :=
  let t := transpose board
  board ^^^ (col_up_table ((t >>> 0) &&& ROW_MASK) <<< 0)
        ^^^ (col_up_table ((t >>> 16) &&& ROW_MASK) <<< 4)
        ^^^ (col_up_table ((t >>> 32) &&& ROW_MASK) <<< 8)
        ^^^ (col_up_table ((t >>> 48) &&& ROW_MASK) <<< 12)

/-- Embeds `execute_move_1` (down). -/
def execute_move_1 (board : Nat) : Nat :=
  let t := transpose board
  board ^^^ (col_down_table ((t >>> 0) &&& ROW_MASK) <<< 0)
        ^^^ (col_down_table ((t >>> 16) &&& ROW_MASK) <<< 4)
        ^^^ (col_down_table ((t >>> 32) &&& ROW_MASK) <<< 8)
        ^^^ (col_down_table ((t >>> 48) &&& ROW_MASK) <<< 12)

/-- Embeds `execute_move_2` (left). -/
def execute_move_2 (board : Nat) : Nat :=
  board ^^^ (row_left_table ((board >>> 0) &&& ROW_MASK) <<< 0)
        ^^^ (row_left_table ((board >>> 16) &&& ROW_MASK) <<< 16)
        ^^^ (row_left_table ((board >>> 32) &&& ROW_MASK) <<< 32)
        ^^^ (row_left_table ((board >>> 48) &&& ROW_MASK) <<< 48)

/-- Embeds `execute_move_3` (right). -/
def execute_move_3 (board : Nat) : Nat :=
  board ^^^ (row_right_table ((board >>> 0) &&& ROW_MASK) <<< 0)
        ^^^ (row_right_table ((board >>> 16) &&& ROW_MASK) <<< 16)
        ^^^ (row_right_table ((board >>> 32) &&& ROW_MASK) <<< 32)
        ^^^ (row_right_table ((board >>> 48) &&& ROW_MASK) <<< 48)

/-- Embeds `do_execute_move` with its `default: return ~0ULL` branch;
the move code is the C `int` argument. -/
def do_execute_move (move : Int) (board : Nat) : Nat :=
  if move = 0 then execute_move_0 board
  else if move = 1 then execute_move_1 board
  else if move = 2 then execute_move_2 board
  else if move = 3 then execute_move_3 board
  else 0xFFFFFFFFFFFFFFFF

/-- Embeds the exported `ai_execute_move`. -/
def ai_execute_move (move : Int) (board : Nat) : Nat := do_execute_move move board

/-- Embeds the exported `ai_count_empty`. -/
def ai_count_empty (board : Nat) : Nat := count_empty board

/-! ## Source embedding: the integer merge counter of the heuristic table -/

/-- Embeds the `merges` accumulation loop of `do_init_tables` (state
`prev`, `counter`, `merges`), including the final flush `if (counter > 0)
merges += 1 + counter`. -/
def mergesLoop : List Nat → Nat → Nat → Nat → Nat
  | [], _, counter, merges => if counter > 0 then merges + (1 + counter) else merges
  | rank :: rest, prev, counter, merges =>
    if rank = 0 then mergesLoop rest prev counter merges
    else if prev = rank then mergesLoop rest prev (counter + 1) merges
    else if counter > 0 then mergesLoop rest rank 0 (merges + (1 + counter))
    else mergesLoop rest rank counter merges

/-- The integer `merges` value computed for a row by `do_init_tables`; it
enters `heur_score_table[row]` scaled by `SCORE_MERGES_WEIGHT`. -/
def line_merges (row : Nat) : Nat := mergesLoop (toLine row) 0 0 0

/-! ## Source embedding: top-level driver (control flow)

The expectimax value of a chance node is an IEEE float in the source; the
driver is embedded with the chance-node evaluator as an explicit
parameter `f` over `ℚ`, which captures exactly the driver's control
flow: the comparisons the driver makes on the evaluator's results. -/

/-- Embeds `internal_score_toplevel_move`: 0 for a move that does not change
the board, otherwise the chance-node value plus the fixed `1e-6` epsilon. -/
def internal_score_toplevel_move (f : Nat → ℚ) (board : Nat) (move : Int) : ℚ :=
  if do_execute_move move board = board then 0
  else f (do_execute_move move board) + 1 / 1000000

/-- Embeds the `for (move = 0; move < 4; move++)` selection loop of
`ai_find_best_move` (state `best`, `bestmove`). -/
def findBestLoop (f : Nat → ℚ) (board : Nat) : List Int → ℚ → Int → Int
  | [], _, bestmove => bestmove
  | m :: rest, best, bestmove =>
    if internal_score_toplevel_move f board m > best then
      findBestLoop f board rest (internal_score_toplevel_move f board m) m
    else findBestLoop f board rest best bestmove

/-- Embeds `ai_find_best_move`: `best = 0`, `bestmove = -1`, scan moves 0..3. -/
def ai_find_best_move (f : Nat → ℚ) (board : Nat) : Int :=
  findBestLoop f board [0, 1, 2, 3] 0 (-1)

/-- The `state.depth_limit = std::max(3, count_distinct_tiles(board) - 2)`
set by `ai_find_best_move` (C `int` arithmetic). -/
def state_depth_limit (board : Nat) : Int :=
  max 3 ((count_distinct_tiles board : Int) - 2)

/-! ## Spec-side reference definitions -/

/-- Nibble `i` of a board: the tile rank of cell `i`. -/
def nib (b i : Nat) : Nat := b / 16 ^ i % 16

/-- Number of empty cells (zero nibbles) of a board, counted directly. -/
def countEmptySpec (b : Nat) : Nat :=
  ((List.range 16).filter (fun i => nib b i = 0)).length

/-- Number of distinct nonzero tile ranks present on the board. -/
def distinctRanksSpec (b : Nat) : Nat :=
  ((Finset.range 16).filter (fun v => v ≠ 0 ∧ ∃ i ∈ Finset.range 16, nib b i = v)).card

/-- Zero cells removed from a line (compaction). -/
def stripZeros (l : List Nat) : List Nat := l.filter (fun x => x ≠ 0)

/-- Pad a line with zeros on the right up to length `n`. -/
def padTo (n : Nat) (l : List Nat) : List Nat := l ++ List.replicate (n - l.length) 0

/-- Modelled from the spec: one non-cascading merge pass on a compacted
line; two equal adjacent tiles become one tile of rank+1; "rank 15 cannot
increase further" so a pair of rank-15 tiles collapses to a single rank-15
tile while the source cell is still zeroed. -/
def mergeLine : List Nat → List Nat
  | a :: b :: t =>
    if a = b then (if a ≠ 15 then a + 1 else a) :: mergeLine t
    else a :: mergeLine (b :: t)
  | l => l

/-- Modelled from the spec: brute-force reference of one slide-left-and-merge
pass on a 16-bit row: compact, merge once without cascading, pad with zeros. -/
def refMoveLeft (row : Nat) : Nat :=
  packLine (padTo 4 (mergeLine (stripZeros (toLine row))))

/-- Lengths of the maximal runs of equal adjacent values of a list
(accumulator: current run value `a`, current run length `n`). -/
def runLengthsAux : List Nat → Nat → Nat → List Nat
  | [], _, n => [n]
  | b :: t, a, n => if b = a then runLengthsAux t a (n + 1) else n :: runLengthsAux t b 1

/-- Lengths of the maximal runs of equal adjacent values of a list. -/
def runLengths : List Nat → List Nat
  | [] => []
  | a :: t => runLengthsAux t a 1

/-- Modelled from the spec: the merge score of a row as a function of the
maximal runs of equal adjacent nonzero ranks (zeros skipped): each run
of length at least 2 contributes its length. -/
def specMergeScore (row : Nat) : Nat :=
  ((runLengths (stripZeros (toLine row))).filter (fun L => 2 ≤ L)).sum

/-- Row `k` (0..3) of a board. -/
def getRow (b k : Nat) : Nat := (b >>> (16 * k)) &&& 0xFFFF

/-- Mirror of a board: every row reversed (the documented symmetry used
for the right-move table). -/
def mirror (b : Nat) : Nat :=
  ofDig 16 [reverse_row (getRow b 0), reverse_row (getRow b 1),
            reverse_row (getRow b 2), reverse_row (getRow b 3)]

/-- Apply a row function to each of the four rows of a board. -/
def rowMap (f : Nat → Nat) (b : Nat) : Nat :=
  ofDig 16 [f (getRow b 0), f (getRow b 1), f (getRow b 2), f (getRow b 3)]

/-! ## Toolkit lemmas: digit splitting of bitwise operations -/

theorem testBit_add_shift {w : Nat} (x y j : Nat) (hx : x < 2 ^ w) :
    (x + 2 ^ w * y).testBit j = if j < w then x.testBit j else y.testBit (j - w) := by
  rcases Nat.lt_or_ge j w with h | h
  · rw [if_pos h, Nat.testBit_to_div_mod, Nat.testBit_to_div_mod]
    have h4 : (2 : Nat) ^ w = 2 ^ j * 2 ^ (w - j) := by rw [← pow_add]; congr 1; omega
    have h5 : (x + 2 ^ w * y) / 2 ^ j = x / 2 ^ j + 2 ^ (w - j) * y := by
      rw [h4, Nat.mul_assoc, Nat.add_mul_div_left _ _ (Nat.two_pow_pos j)]
    rw [h5]
    have h6 : (2 : Nat) ^ (w - j) * y = 2 * (2 ^ (w - j - 1) * y) := by
      rw [← Nat.mul_assoc, ← Nat.pow_succ']; congr 2; omega
    rw [h6]
    have h7 : (x / 2 ^ j + 2 * (2 ^ (w - j - 1) * y)) % 2 = x / 2 ^ j % 2 := by omega
    rw [h7]
  · rw [if_neg (by omega), Nat.testBit_to_div_mod, Nat.testBit_to_div_mod]
    have h5 : (2 : Nat) ^ j = 2 ^ w * 2 ^ (j - w) := by rw [← pow_add]; congr 1; omega
    have h4 : (x + 2 ^ w * y) / 2 ^ j = y / 2 ^ (j - w) := by
      rw [h5, ← Nat.div_div_eq_div_mul, Nat.add_mul_div_left _ _ (Nat.two_pow_pos w),
        Nat.div_eq_of_lt hx, Nat.zero_add]
    rw [h4]

theorem and_split {w : Nat} (x y z t : Nat) (hx : x < 2 ^ w) (hz : z < 2 ^ w) :
    (x + 2 ^ w * y) &&& (z + 2 ^ w * t) = (x &&& z) + 2 ^ w * (y &&& t) := by
  have hxz : x &&& z < 2 ^ w := lt_of_le_of_lt Nat.and_le_left hx
  apply Nat.eq_of_testBit_eq
  intro j
  rw [Nat.testBit_and, testBit_add_shift _ _ _ hx, testBit_add_shift _ _ _ hz,
    testBit_add_shift _ _ _ hxz]
  split <;> rw [Nat.testBit_and]

theorem or_split {w : Nat} (x y z t : Nat) (hx : x < 2 ^ w) (hz : z < 2 ^ w) :
    (x + 2 ^ w * y) ||| (z + 2 ^ w * t) = (x ||| z) + 2 ^ w * (y ||| t) := by
  have hxz : x ||| z < 2 ^ w := Nat.or_lt_two_pow hx hz
  apply Nat.eq_of_testBit_eq
  intro j
  rw [Nat.testBit_or, testBit_add_shift _ _ _ hx, testBit_add_shift _ _ _ hz,
    testBit_add_shift _ _ _ hxz]
  split <;> rw [Nat.testBit_or]

theorem xor_split {w : Nat} (x y z t : Nat) (hx : x < 2 ^ w) (hz : z < 2 ^ w) :
    (x + 2 ^ w * y) ^^^ (z + 2 ^ w * t) = (x ^^^ z) + 2 ^ w * (y ^^^ t) := by
  have hxz : x ^^^ z < 2 ^ w := Nat.xor_lt_two_pow hx hz
  apply Nat.eq_of_testBit_eq
  intro j
  rw [Nat.testBit_xor, testBit_add_shift _ _ _ hx, testBit_add_shift _ _ _ hz,
    testBit_add_shift _ _ _ hxz]
  split <;> rw [Nat.testBit_xor]

theorem ofDig_zeros (w : Nat) : ∀ n, ofDig w (List.replicate n 0) = 0
  | 0 => rfl
  | n + 1 => by simp [List.replicate_succ, ofDig, ofDig_zeros w n]

theorem ofDig_dzip_and (w : Nat) (l m : List Nat) (hl : ∀ x ∈ l, x < 2 ^ w)
    (hm : ∀ x ∈ m, x < 2 ^ w) :
    ofDig w l &&& ofDig w m = ofDig w (dzip (· &&& ·) l m) := by
  induction l generalizing m with
  | nil =>
    simp only [ofDig, dzip, Nat.zero_and]
    rw [List.map_const', ofDig_zeros]
  | cons a l ih =>
    cases m with
    | nil =>
      have h2 : ofDig w (dzip (· &&& ·) l ([] : List Nat)) = 0 := by
        have h1 := ih [] (fun x hx => hl x (List.mem_cons_of_mem a hx)) (by simp)
        simp only [ofDig, Nat.and_zero] at h1
        omega
      show ofDig w (a :: l) &&& ofDig w [] = ofDig w ((a &&& 0) :: dzip (· &&& ·) l [])
      simp only [ofDig, Nat.and_zero, h2, Nat.mul_zero, Nat.add_zero, Nat.zero_add]
    | cons b m =>
      have ha : a < 2 ^ w := hl a (List.mem_cons_self a l)
      have hb : b < 2 ^ w := hm b (List.mem_cons_self b m)
      show (a + 2 ^ w * ofDig w l) &&& (b + 2 ^ w * ofDig w m) =
        (a &&& b) + 2 ^ w * ofDig w (dzip (· &&& ·) l m)
      rw [and_split _ _ _ _ ha hb,
        ih m (fun x hx => hl x (List.mem_cons_of_mem a hx))
          (fun x hx => hm x (List.mem_cons_of_mem b hx))]

theorem ofDig_dzip_or (w : Nat) (l m : List Nat) (hl : ∀ x ∈ l, x < 2 ^ w)
    (hm : ∀ x ∈ m, x < 2 ^ w) :
    ofDig w l ||| ofDig w m = ofDig w (dzip (· ||| ·) l m) := by
  induction l generalizing m with
  | nil =>
    simp only [ofDig, dzip, Nat.zero_or]
    rw [show (List.map (fun x : Nat => x) m) = m from List.map_id' m]
  | cons a l ih =>
    cases m with
    | nil =>
      have h2 : ofDig w (dzip (· ||| ·) l ([] : List Nat)) = ofDig w l := by
        have h1 := ih [] (fun x hx => hl x (List.mem_cons_of_mem a hx)) (by simp)
        simp only [ofDig, Nat.or_zero] at h1
        omega
      show ofDig w (a :: l) ||| ofDig w [] = ofDig w ((a ||| 0) :: dzip (· ||| ·) l [])
      simp only [ofDig, Nat.or_zero, h2]
    | cons b m =>
      have ha : a < 2 ^ w := hl a (List.mem_cons_self a l)
      have hb : b < 2 ^ w := hm b (List.mem_cons_self b m)
      show (a + 2 ^ w * ofDig w l) ||| (b + 2 ^ w * ofDig w m) =
        (a ||| b) + 2 ^ w * ofDig w (dzip (· ||| ·) l m)
      rw [or_split _ _ _ _ ha hb,
        ih m (fun x hx => hl x (List.mem_cons_of_mem a hx))
          (fun x hx => hm x (List.mem_cons_of_mem b hx))]

theorem ofDig_dzip_xor (w : Nat) (l m : List Nat) (hl : ∀ x ∈ l, x < 2 ^ w)
    (hm : ∀ x ∈ m, x < 2 ^ w) :
    ofDig w l ^^^ ofDig w m = ofDig w (dzip (· ^^^ ·) l m) := by
  induction l generalizing m with
  | nil =>
    simp only [ofDig, dzip, Nat.zero_xor]
    rw [show (List.map (fun x : Nat => x) m) = m from List.map_id' m]
  | cons a l ih =>
    cases m with
    | nil =>
      have h2 : ofDig w (dzip (· ^^^ ·) l ([] : List Nat)) = ofDig w l := by
        have h1 := ih [] (fun x hx => hl x (List.mem_cons_of_mem a hx)) (by simp)
        simp only [ofDig, Nat.xor_zero] at h1
        omega
      show ofDig w (a :: l) ^^^ ofDig w [] = ofDig w ((a ^^^ 0) :: dzip (· ^^^ ·) l [])
      simp only [ofDig, Nat.xor_zero, h2]
    | cons b m =>
      have ha : a < 2 ^ w := hl a (List.mem_cons_self a l)
      have hb : b < 2 ^ w := hm b (List.mem_cons_self b m)
      show (a + 2 ^ w * ofDig w l) ^^^ (b + 2 ^ w * ofDig w m) =
        (a ^^^ b) + 2 ^ w * ofDig w (dzip (· ^^^ ·) l m)
      rw [xor_split _ _ _ _ ha hb,
        ih m (fun x hx => hl x (List.mem_cons_of_mem a hx))
          (fun x hx => hm x (List.mem_cons_of_mem b hx))]

theorem ofDig_append (w : Nat) : ∀ l m : List Nat,
    ofDig w (l ++ m) = ofDig w l + 2 ^ (w * l.length) * ofDig w m
  | [], m => by simp [ofDig]
  | d :: l, m => by
    show d + 2 ^ w * ofDig w (l ++ m) =
      (d + 2 ^ w * ofDig w l) + 2 ^ (w * (l.length + 1)) * ofDig w m
    rw [ofDig_append w l m]
    have h1 : w * (l.length + 1) = w + w * l.length := by ring
    rw [h1, pow_add]
    ring

theorem ofDig_lt (w : Nat) : ∀ l : List Nat, (∀ x ∈ l, x < 2 ^ w) →
    ofDig w l < 2 ^ (w * l.length)
  | [], _ => by simp [ofDig]
  | d :: l, h => by
    have hd : d < 2 ^ w := h d (List.mem_cons_self d l)
    have hl := ofDig_lt w l (fun x hx => h x (List.mem_cons_of_mem d hx))
    simp only [ofDig, List.length_cons]
    have h1 : w * (l.length + 1) = w + w * l.length := by ring
    rw [h1, pow_add]
    have h3 : 2 ^ w * ofDig w l + 2 ^ w ≤ 2 ^ w * 2 ^ (w * l.length) := by
      rw [← Nat.mul_succ]; exact Nat.mul_le_mul_left _ hl
    omega

theorem ofDig_shiftLeft (w k : Nat) (l : List Nat) :
    ofDig w l <<< (w * k) = ofDig w (List.replicate k 0 ++ l) := by
  induction k with
  | zero => simp [Nat.shiftLeft_eq]
  | succ k ih =>
    rw [List.replicate_succ, List.cons_append]
    show _ = 0 + 2 ^ w * ofDig w (List.replicate k 0 ++ l)
    rw [← ih, Nat.shiftLeft_eq, Nat.shiftLeft_eq, Nat.zero_add]
    have h1 : w * (k + 1) = w + w * k := by ring
    rw [h1, pow_add]
    ring

theorem ofDig_shiftRight (w : Nat) : ∀ (k : Nat) (l : List Nat), (∀ x ∈ l, x < 2 ^ w) →
    ofDig w l >>> (w * k) = ofDig w (l.drop k)
  | 0, l, _ => by simp
  | k + 1, [], _ => by simp [ofDig]
  | k + 1, d :: l, h => by
    have hd : d < 2 ^ w := h d (List.mem_cons_self d l)
    have h1 : w * (k + 1) = w + w * k := by ring
    rw [h1, Nat.shiftRight_add]
    have h2 : ofDig w (d :: l) >>> w = ofDig w l := by
      show (d + 2 ^ w * ofDig w l) >>> w = ofDig w l
      rw [Nat.shiftRight_eq_div_pow, Nat.add_mul_div_left _ _ (Nat.two_pow_pos w),
        Nat.div_eq_of_lt hd, Nat.zero_add]
    rw [h2, ofDig_shiftRight w k l (fun x hx => h x (List.mem_cons_of_mem d hx))]
    rfl

theorem ofDig_mod (w : Nat) : ∀ (k : Nat) (l : List Nat), (∀ x ∈ l, x < 2 ^ w) →
    ofDig w l % 2 ^ (w * k) = ofDig w (l.take k)
  | 0, l, _ => by simp [ofDig, Nat.mul_zero, pow_zero, Nat.mod_one]
  | k + 1, [], _ => by simp [ofDig]
  | k + 1, d :: l, h => by
    have hd : d < 2 ^ w := h d (List.mem_cons_self d l)
    have ih := ofDig_mod w k l (fun x hx => h x (List.mem_cons_of_mem d hx))
    have hq := Nat.div_add_mod (ofDig w l) (2 ^ (w * k))
    have hrlt : ofDig w l % 2 ^ (w * k) < 2 ^ (w * k) := Nat.mod_lt _ (Nat.two_pow_pos _)
    have h1 : w * (k + 1) = w + w * k := by ring
    show (d + 2 ^ w * ofDig w l) % 2 ^ (w * (k + 1)) = d + 2 ^ w * ofDig w (l.take k)
    rw [h1, pow_add, ← ih]
    have h2 : d + 2 ^ w * ofDig w l =
        d + 2 ^ w * (ofDig w l % 2 ^ (w * k)) +
          2 ^ w * 2 ^ (w * k) * (ofDig w l / 2 ^ (w * k)) := by
      conv_lhs => rw [← hq]
      ring
    rw [h2, Nat.add_mul_mod_self_left]
    apply Nat.mod_eq_of_lt
    have h3 : 2 ^ w * (ofDig w l % 2 ^ (w * k)) + 2 ^ w ≤ 2 ^ w * 2 ^ (w * k) := by
      rw [← Nat.mul_succ]; exact Nat.mul_le_mul_left _ hrlt
    omega

theorem toDig_lt (w : Nat) : ∀ (k b : Nat), ∀ x ∈ toDig w k b, x < 2 ^ w
  | 0, b => by simp [toDig]
  | k + 1, b => by
    intro x hx
    simp only [toDig, List.mem_cons] at hx
    rcases hx with rfl | hx
    · exact Nat.mod_lt _ (Nat.two_pow_pos w)
    · exact toDig_lt w k (b / 2 ^ w) x hx

theorem toDig_length (w : Nat) : ∀ k b, (toDig w k b).length = k
  | 0, _ => rfl
  | k + 1, b => by simp [toDig, toDig_length w k]

theorem ofDig_toDig (w : Nat) : ∀ (k b : Nat), b < 2 ^ (w * k) → ofDig w (toDig w k b) = b
  | 0, b, h => by
    simp only [Nat.mul_zero, pow_zero, Nat.lt_one_iff] at h
    simp [toDig, ofDig, h]
  | k + 1, b, h => by
    have h1 : w * (k + 1) = w + w * k := by ring
    rw [h1, pow_add] at h
    have h2 : b / 2 ^ w < 2 ^ (w * k) := Nat.div_lt_of_lt_mul (by rw [Nat.mul_comm] at h ⊢; exact h)
    show b % 2 ^ w + 2 ^ w * ofDig w (toDig w k (b / 2 ^ w)) = b
    rw [ofDig_toDig w k (b / 2 ^ w) h2, Nat.mod_add_div]

/-! ## Nibble view of a board -/

theorem nib_lt (b i : Nat) : nib b i < 16 := Nat.mod_lt _ (by norm_num)

theorem toDig_nib16 (b : Nat) : toDig 4 16 b =
    [nib b 0, nib b 1, nib b 2, nib b 3, nib b 4, nib b 5, nib b 6, nib b 7,
     nib b 8, nib b 9, nib b 10, nib b 11, nib b 12, nib b 13, nib b 14, nib b 15] := by
  simp only [toDig, nib, Nat.div_div_eq_div_mul]
  norm_num

theorem toDig_nib4 (r : Nat) : toDig 4 4 r = [nib r 0, nib r 1, nib r 2, nib r 3] := by
  simp only [toDig, nib, Nat.div_div_eq_div_mul]
  norm_num

theorem board_nibs (b : Nat) (h : b < 2 ^ 64) :
    b = ofDig 4 [nib b 0, nib b 1, nib b 2, nib b 3, nib b 4, nib b 5, nib b 6, nib b 7,
      nib b 8, nib b 9, nib b 10, nib b 11, nib b 12, nib b 13, nib b 14, nib b 15] := by
  rw [← toDig_nib16]
  exact (ofDig_toDig 4 16 b (by norm_num; exact h)).symm

theorem row_nibs (r : Nat) (h : r < 2 ^ 16) :
    r = ofDig 4 [nib r 0, nib r 1, nib r 2, nib r 3] := by
  rw [← toDig_nib4]
  exact (ofDig_toDig 4 4 r (by norm_num; exact h)).symm

theorem nibs16_bounded (b : Nat) : ∀ x ∈
    [nib b 0, nib b 1, nib b 2, nib b 3, nib b 4, nib b 5, nib b 6, nib b 7,
     nib b 8, nib b 9, nib b 10, nib b 11, nib b 12, nib b 13, nib b 14, nib b 15],
    x < 2 ^ 4 := by
  intro x hx
  simp only [List.mem_cons, List.not_mem_nil, or_false] at hx
  rcases hx with rfl | rfl | rfl | rfl | rfl | rfl | rfl | rfl | rfl | rfl | rfl | rfl | rfl |
    rfl | rfl | rfl <;> exact nib_lt b _

theorem nibs4_bounded (r : Nat) : ∀ x ∈ [nib r 0, nib r 1, nib r 2, nib r 3], x < 2 ^ 4 := by
  intro x hx
  simp only [List.mem_cons, List.not_mem_nil, or_false] at hx
  rcases hx with rfl | rfl | rfl | rfl <;> exact nib_lt r _

/-! ## The slide loop computes compact-and-merge -/

theorem moveLoop_at3 (fuel : Nat) (h : 1 ≤ fuel) (l : List Nat) :
    moveLoop fuel l 3 = some l := by
  cases fuel with
  | zero => omega
  | succ f => simp [moveLoop]

theorem moveLoop_at2 (fuel : Nat) (h : 3 ≤ fuel) (a b c d : Nat) :
    moveLoop fuel [a, b, c, d] 2 =
      some ([a, b] ++ padTo 2 (mergeLine (stripZeros [c, d]))) := by
  cases fuel with
  | zero => omega
  | succ f =>
    by_cases hd : d = 0
    · subst hd
      by_cases hc : c = 0
      · subst hc
        simp [moveLoop, findNZ, findNZGo, padTo, mergeLine, stripZeros]
      · simp [moveLoop, findNZ, findNZGo, padTo, mergeLine, stripZeros, hc]
    · by_cases hc : c = 0
      · subst hc
        -- pull: line becomes [a,b,d,0], then exit at j = 4
        cases f with
        | zero => omega
        | succ f2 =>
          simp [moveLoop, findNZ, findNZGo, padTo, mergeLine, stripZeros, hd]
      · by_cases hcd : c = d
        · -- merge
          cases f with
          | zero => omega
          | succ f2 =>
            by_cases h15 : d = 15 <;>
              simp [moveLoop, findNZ, findNZGo, padTo, mergeLine, stripZeros, hd, hc, hcd, h15,
                moveLoop_at3 (f2 + 1) (by omega)]
        · -- mismatch
          cases f with
          | zero => omega
          | succ f2 =>
            simp [moveLoop, findNZ, findNZGo, padTo, mergeLine, stripZeros, hd, hc, hcd,
              moveLoop_at3 (f2 + 1) (by omega)]


theorem moveLoop_at1 (fuel : Nat) (h : 5 ≤ fuel) (a b c d : Nat) :
    moveLoop fuel [a, b, c, d] 1 =
      some ([a] ++ padTo 3 (mergeLine (stripZeros [b, c, d]))) := by
  cases fuel with
  | zero => omega
  | succ f =>
    by_cases hc : c = 0
    · by_cases hd : d = 0
      · -- j = 4: exit
        subst hc; subst hd
        by_cases hb : b = 0 <;>
          simp [moveLoop, findNZ, findNZGo, padTo, mergeLine, stripZeros, hb]
      · -- j = 3
        subst hc
        by_cases hb : b = 0
        · -- pull to [a,d,0,0], then exit
          subst hb
          cases f with
          | zero => omega
          | succ f2 =>
            simp [moveLoop, findNZ, findNZGo, padTo, mergeLine, stripZeros, hd]
        · by_cases hbd : b = d
          · -- merge b with d
            by_cases h15 : d = 15 <;>
              simp [moveLoop, findNZ, findNZGo, padTo, mergeLine, stripZeros, hb, hd, hbd, h15,
                moveLoop_at2 f (by omega)]
          · -- mismatch
            simp [moveLoop, findNZ, findNZGo, padTo, mergeLine, stripZeros, hb, hd, hbd,
              moveLoop_at2 f (by omega)]
    · -- j = 2
      by_cases hb : b = 0
      · -- pull to [a,c,0,d]
        subst hb
        cases f with
        | zero => omega
        | succ f2 =>
          by_cases hd : d = 0
          · -- second scan finds nothing: exit [a,c,0,0]
            subst hd
            simp [moveLoop, findNZ, findNZGo, padTo, mergeLine, stripZeros, hc]
          · by_cases hcd : c = d
            · by_cases h15 : d = 15 <;>
                simp [moveLoop, findNZ, findNZGo, padTo, mergeLine, stripZeros, hc, hd, hcd, h15,
                  moveLoop_at2 f2 (by omega)]
            · simp [moveLoop, findNZ, findNZGo, padTo, mergeLine, stripZeros, hc, hd, hcd,
                moveLoop_at2 f2 (by omega)]
      · by_cases hbc : b = c
        · -- merge b with c
          by_cases h15 : c = 15 <;> by_cases hd : d = 0 <;>
            simp [moveLoop, findNZ, findNZGo, padTo, mergeLine, stripZeros, hb, hc, hbc, h15, hd,
              moveLoop_at2 f (by omega)]
        · -- mismatch
          by_cases hd : d = 0 <;>
            simp [moveLoop, findNZ, findNZGo, padTo, mergeLine, stripZeros, hb, hc, hbc, hd,
              moveLoop_at2 f (by omega)]


theorem moveLoop_at0 (fuel : Nat) (h : 7 ≤ fuel) (a b c d : Nat) :
    moveLoop fuel [a, b, c, d] 0 =
      some (padTo 4 (mergeLine (stripZeros [a, b, c, d]))) := by
  cases fuel with
  | zero => omega
  | succ f =>
    by_cases hb : b = 0
    · by_cases hc : c = 0
      · by_cases hd : d = 0
        · -- j = 4: exit
          subst hb; subst hc; subst hd
          by_cases ha : a = 0 <;>
            simp [moveLoop, findNZ, findNZGo, padTo, mergeLine, stripZeros, ha]
        · -- j = 3
          subst hb; subst hc
          by_cases ha : a = 0
          · -- pull to [d,0,0,0], then exit
            subst ha
            cases f with
            | zero => omega
            | succ f2 =>
              simp [moveLoop, findNZ, findNZGo, padTo, mergeLine, stripZeros, hd]
          · by_cases had : a = d
            · by_cases h15 : d = 15 <;>
                simp [moveLoop, findNZ, findNZGo, padTo, mergeLine, stripZeros, ha, hd, had, h15,
                  moveLoop_at1 f (by omega)]
            · simp [moveLoop, findNZ, findNZGo, padTo, mergeLine, stripZeros, ha, hd, had,
                moveLoop_at1 f (by omega)]
      · -- j = 2
        subst hb
        by_cases ha : a = 0
        · -- pull to [c,0,0,d]
          subst ha
          cases f with
          | zero => omega
          | succ f2 =>
            by_cases hd : d = 0
            · subst hd
              simp [moveLoop, findNZ, findNZGo, padTo, mergeLine, stripZeros, hc]
            · by_cases hcd : c = d
              · by_cases h15 : d = 15 <;>
                  simp [moveLoop, findNZ, findNZGo, padTo, mergeLine, stripZeros, hc, hd, hcd,
                    h15, moveLoop_at1 f2 (by omega)]
              · simp [moveLoop, findNZ, findNZGo, padTo, mergeLine, stripZeros, hc, hd, hcd,
                  moveLoop_at1 f2 (by omega)]
        · by_cases hac : a = c
          · by_cases h15 : c = 15 <;>
              simp [moveLoop, findNZ, findNZGo, padTo, mergeLine, stripZeros, ha, hc, hac, h15,
                moveLoop_at1 f (by omega)]
          · simp [moveLoop, findNZ, findNZGo, padTo, mergeLine, stripZeros, ha, hc, hac,
              moveLoop_at1 f (by omega)]
    · -- j = 1
      by_cases ha : a = 0
      · -- pull to [b,0,c,d]
        subst ha
        cases f with
        | zero => omega
        | succ f2 =>
          by_cases hc : c = 0
          · by_cases hd : d = 0
            · -- second scan finds nothing: exit [b,0,0,0]
              subst hc; subst hd
              simp [moveLoop, findNZ, findNZGo, padTo, mergeLine, stripZeros, hb]
            · -- second j = 3: compare b with d
              subst hc
              by_cases hbd : b = d
              · by_cases h15 : d = 15 <;>
                  simp [moveLoop, findNZ, findNZGo, padTo, mergeLine, stripZeros, hb, hd, hbd,
                    h15, moveLoop_at1 f2 (by omega)]
              · simp [moveLoop, findNZ, findNZGo, padTo, mergeLine, stripZeros, hb, hd, hbd,
                  moveLoop_at1 f2 (by omega)]
          · -- second j = 2: compare b with c
            by_cases hbc : b = c
            · by_cases h15 : c = 15 <;> by_cases hd : d = 0 <;>
                simp [moveLoop, findNZ, findNZGo, padTo, mergeLine, stripZeros, hb, hc, hbc,
                  h15, hd, moveLoop_at1 f2 (by omega)]
            · by_cases hd : d = 0 <;>
                simp [moveLoop, findNZ, findNZGo, padTo, mergeLine, stripZeros, hb, hc, hbc, hd,
                  moveLoop_at1 f2 (by omega)]
      · by_cases hab : a = b
        · -- merge a with b
          by_cases h15 : b = 15 <;>
            simp [moveLoop, findNZ, findNZGo, padTo, mergeLine, stripZeros, ha, hb, hab, h15,
              moveLoop_at1 f (by omega)]
        · -- mismatch
          simp [moveLoop, findNZ, findNZGo, padTo, mergeLine, stripZeros, ha, hb, hab,
            moveLoop_at1 f (by omega)]

/-- The `result` row of `do_init_tables` is exactly the brute-force
compact-and-merge reference pass. -/
theorem row_move_result_eq_ref (r : Nat) : row_move_result r = refMoveLeft r := by
  show packLine ((moveLoop 32 (toLine r) 0).getD (toLine r)) =
    packLine (padTo 4 (mergeLine (stripZeros (toLine r))))
  rw [show toLine r = [(r >>> 0) &&& 0xf, (r >>> 4) &&& 0xf, (r >>> 8) &&& 0xf,
    (r >>> 12) &&& 0xf] from rfl, moveLoop_at0 32 (by omega)]
  rfl

/-! ## List lemmas for the reference pass -/

theorem or_field {w : Nat} (x y : Nat) (hx : x < 2 ^ w) : x ||| 2 ^ w * y = x + 2 ^ w * y := by
  have h := or_split (w := w) x 0 0 y hx (Nat.two_pow_pos w)
  simp only [Nat.mul_zero, Nat.add_zero, Nat.zero_add, Nat.or_zero, Nat.zero_or] at h
  exact h

theorem mergeLine_length_le : ∀ l : List Nat, (mergeLine l).length ≤ l.length
  | [] => by simp [mergeLine]
  | [a] => by simp [mergeLine]
  | a :: b :: t => by
    by_cases hab : a = b
    · subst hab
      have h1 := mergeLine_length_le t
      simp [mergeLine]
      omega
    · have h1 := mergeLine_length_le (b :: t)
      have h2 : mergeLine (a :: b :: t) = a :: mergeLine (b :: t) := by
        rw [mergeLine, if_neg hab]
      rw [h2]
      simp only [List.length_cons] at h1 ⊢
      omega

theorem mergeLine_eq_of_length : ∀ l : List Nat, (mergeLine l).length = l.length → mergeLine l = l
  | [], _ => rfl
  | [a], _ => rfl
  | a :: b :: t, h => by
    by_cases hab : a = b
    · subst hab
      have h1 := mergeLine_length_le t
      simp [mergeLine] at h
      omega
    · have h1 := mergeLine_eq_of_length (b :: t)
      have h2 : mergeLine (a :: b :: t) = a :: mergeLine (b :: t) := by
        rw [mergeLine, if_neg hab]
      rw [h2] at h ⊢
      simp only [List.length_cons] at h
      rw [h1 (by simp only [List.length_cons]; omega)]

theorem mergeLine_nonzero : ∀ l : List Nat, (∀ x ∈ l, x ≠ 0) → ∀ x ∈ mergeLine l, x ≠ 0
  | [], _ => by simp [mergeLine]
  | [a], h => by simpa [mergeLine] using h
  | a :: b :: t, h => by
    have ha : a ≠ 0 := h a (by simp)
    have ht : ∀ x ∈ t, x ≠ 0 := fun x hx => h x (by simp [hx])
    have hbt : ∀ x ∈ b :: t, x ≠ 0 := fun x hx => h x (by simp at hx ⊢; tauto)
    by_cases hab : a = b
    · intro x hx
      simp only [mergeLine, if_pos hab, List.mem_cons] at hx
      rcases hx with rfl | hx
      · split <;> omega
      · exact mergeLine_nonzero t ht x hx
    · intro x hx
      simp only [mergeLine, if_neg hab, List.mem_cons] at hx
      rcases hx with rfl | hx
      · exact ha
      · exact mergeLine_nonzero (b :: t) hbt x hx

theorem mergeLine_lt16 : ∀ l : List Nat, (∀ x ∈ l, x < 16) → ∀ x ∈ mergeLine l, x < 16
  | [], _ => by simp [mergeLine]
  | [a], h => by simpa [mergeLine] using h
  | a :: b :: t, h => by
    have ha : a < 16 := h a (by simp)
    have ht : ∀ x ∈ t, x < 16 := fun x hx => h x (by simp [hx])
    have hbt : ∀ x ∈ b :: t, x < 16 := fun x hx => h x (by simp at hx ⊢; tauto)
    by_cases hab : a = b
    · intro x hx
      simp only [mergeLine, if_pos hab, List.mem_cons] at hx
      rcases hx with rfl | hx
      · split <;> omega
      · exact mergeLine_lt16 t ht x hx
    · intro x hx
      simp only [mergeLine, if_neg hab, List.mem_cons] at hx
      rcases hx with rfl | hx
      · exact ha
      · exact mergeLine_lt16 (b :: t) hbt x hx

theorem mergeLine_ne_nil (a : Nat) (t : List Nat) : mergeLine (a :: t) ≠ [] := by
  cases t with
  | nil => simp [mergeLine]
  | cons b t2 => by_cases hab : a = b <;> simp [mergeLine, hab]

theorem mergeLine_short (l : List Nat) (h : l.length ≤ 1) : mergeLine l = l := by
  cases l with
  | nil => rfl
  | cons a t => cases t with
    | nil => rfl
    | cons b t2 => simp at h

theorem strip_of_nonzero (l : List Nat) (h : ∀ x ∈ l, x ≠ 0) : stripZeros l = l := by
  unfold stripZeros
  rw [List.filter_eq_self]
  intro x hx
  simpa using h x hx

theorem strip_mem (l : List Nat) (x : Nat) (hx : x ∈ stripZeros l) : x ∈ l ∧ x ≠ 0 := by
  unfold stripZeros at hx
  have h1 := List.of_mem_filter hx
  have h2 := List.mem_of_mem_filter hx
  simp at h1
  exact ⟨h2, h1⟩

theorem strip_length_le (l : List Nat) : (stripZeros l).length ≤ l.length :=
  List.length_filter_le _ l

theorem strip_padTo (n : Nat) (l : List Nat) : stripZeros (padTo n l) = stripZeros l := by
  unfold stripZeros padTo
  rw [List.filter_append]
  have h : List.filter (fun x => decide (x ≠ 0)) (List.replicate (n - l.length) 0) = [] := by
    simp
  rw [h, List.append_nil]

theorem strip_strip_eq (l : List Nat) : stripZeros (stripZeros l) = stripZeros l :=
  strip_of_nonzero _ (fun x hx => (strip_mem l x hx).2)

theorem zero_mem_padTo (n : Nat) (l : List Nat) (h : l.length < n) : 0 ∈ padTo n l := by
  unfold padTo
  rw [List.mem_append]
  right
  rw [List.mem_replicate]
  omega

theorem padTo_length (n : Nat) (l : List Nat) (h : l.length ≤ n) : (padTo n l).length = n := by
  simp [padTo]
  omega

theorem length_strip_add (l : List Nat) :
    (stripZeros l).length + (l.filter (fun x => x = 0)).length = l.length := by
  induction l with
  | nil => rfl
  | cons a t ih =>
    by_cases ha : a = 0 <;> simp [stripZeros, List.filter, ha] at ih ⊢ <;> omega

/-! ## Row arithmetic and reference-pass consequences -/

theorem and15_mod (x : Nat) : x &&& 15 = x % 16 := by
  have h := Nat.and_pow_two_sub_one_eq_mod x 4
  norm_num at h
  exact h

theorem toLine_eq_nibs (r : Nat) : toLine r = [nib r 0, nib r 1, nib r 2, nib r 3] := by
  simp only [toLine, nib, and15_mod, Nat.shiftRight_eq_div_pow]
  norm_num

theorem toLine_length (r : Nat) : (toLine r).length = 4 := rfl

theorem toLine_lt (r : Nat) : ∀ x ∈ toLine r, x < 16 := by
  intro x hx
  simp only [toLine, List.mem_cons, List.not_mem_nil, or_false] at hx
  rcases hx with rfl | rfl | rfl | rfl <;>
    exact Nat.lt_succ_of_le Nat.and_le_right

theorem getD_lt : ∀ (l : List Nat), (∀ x ∈ l, x < 16) → ∀ k, l.getD k 0 < 16
  | [], _, k => by simp [List.getD]
  | a :: t, h, 0 => by simpa using h a (by simp)
  | a :: t, h, k + 1 => by simpa using getD_lt t (fun x hx => h x (by simp [hx])) k

theorem packLine_eq (l : List Nat) (h : ∀ x ∈ l, x < 16) :
    packLine l = l.getD 0 0 + 16 * l.getD 1 0 + 256 * l.getD 2 0 + 4096 * l.getD 3 0 := by
  have h0 := getD_lt l h 0
  have h1 := getD_lt l h 1
  have h2 := getD_lt l h 2
  have e4 : (2 : Nat) ^ 4 = 16 := by norm_num
  have e8 : (2 : Nat) ^ 8 = 256 := by norm_num
  have e12 : (2 : Nat) ^ 12 = 4096 := by norm_num
  have hx0 : l.getD 0 0 < 2 ^ 4 := by rw [e4]; exact h0
  have hx1 : l.getD 0 0 + 2 ^ 4 * l.getD 1 0 < 2 ^ 8 := by rw [e4, e8]; omega
  have hx2 : l.getD 0 0 + 2 ^ 4 * l.getD 1 0 + 2 ^ 8 * l.getD 2 0 < 2 ^ 12 := by
    rw [e4, e8, e12]; omega
  unfold packLine
  rw [Nat.shiftLeft_eq, Nat.shiftLeft_eq, Nat.shiftLeft_eq, Nat.shiftLeft_eq, Nat.pow_zero,
    Nat.mul_one, Nat.mul_comm (l.getD 1 0) (2 ^ 4), Nat.mul_comm (l.getD 2 0) (2 ^ 8),
    Nat.mul_comm (l.getD 3 0) (2 ^ 12), or_field _ _ hx0, or_field _ _ hx1, or_field _ _ hx2,
    e4, e8, e12]

theorem packLine_lt (l : List Nat) (h : ∀ x ∈ l, x < 16) : packLine l < 2 ^ 16 := by
  have h0 := getD_lt l h 0
  have h1 := getD_lt l h 1
  have h2 := getD_lt l h 2
  have h3 := getD_lt l h 3
  rw [packLine_eq l h]
  have e16 : (2 : Nat) ^ 16 = 65536 := by norm_num
  rw [e16]
  omega

theorem packLine_toLine (r : Nat) (hr : r < 2 ^ 16) : packLine (toLine r) = r := by
  rw [toLine_eq_nibs, packLine_eq _ (by
    intro x hx
    simp only [List.mem_cons, List.not_mem_nil, or_false] at hx
    rcases hx with rfl | rfl | rfl | rfl <;> exact nib_lt r _)]
  simp only [List.getD_cons_zero, List.getD_cons_succ]
  simp only [nib]
  norm_num at hr ⊢
  omega

theorem toLine_packLine (a b c d : Nat) (ha : a < 16) (hb : b < 16) (hc : c < 16)
    (hd : d < 16) : toLine (packLine [a, b, c, d]) = [a, b, c, d] := by
  have hm : ∀ x ∈ [a, b, c, d], x < 16 := by
    intro x hx
    simp only [List.mem_cons, List.not_mem_nil, or_false] at hx
    rcases hx with rfl | rfl | rfl | rfl <;> assumption
  rw [packLine_eq _ hm, toLine_eq_nibs]
  simp only [List.getD_cons_zero, List.getD_cons_succ, nib, List.cons.injEq, and_true]
  norm_num
  refine ⟨by omega, by omega, by omega, by omega⟩

theorem toLine_packLine_pad (m : List Nat) (hlen : m.length ≤ 4) (h : ∀ x ∈ m, x < 16) :
    toLine (packLine (padTo 4 m)) = padTo 4 m := by
  rcases m with _ | ⟨x, _ | ⟨y, _ | ⟨z, _ | ⟨w, _ | ⟨v, t⟩⟩⟩⟩⟩
  · show toLine (packLine [0, 0, 0, 0]) = [0, 0, 0, 0]
    exact toLine_packLine 0 0 0 0 (by norm_num) (by norm_num) (by norm_num) (by norm_num)
  · show toLine (packLine [x, 0, 0, 0]) = [x, 0, 0, 0]
    exact toLine_packLine x 0 0 0 (h x (by simp)) (by norm_num) (by norm_num) (by norm_num)
  · show toLine (packLine [x, y, 0, 0]) = [x, y, 0, 0]
    exact toLine_packLine x y 0 0 (h x (by simp)) (h y (by simp)) (by norm_num) (by norm_num)
  · show toLine (packLine [x, y, z, 0]) = [x, y, z, 0]
    exact toLine_packLine x y z 0 (h x (by simp)) (h y (by simp)) (h z (by simp)) (by norm_num)
  · show toLine (packLine [x, y, z, w]) = [x, y, z, w]
    exact toLine_packLine x y z w (h x (by simp)) (h y (by simp)) (h z (by simp))
      (h w (by simp))
  · simp at hlen

theorem strip_toLine_lt (r : Nat) : ∀ x ∈ stripZeros (toLine r), x < 16 :=
  fun x hx => toLine_lt r x (strip_mem _ x hx).1

theorem mergeStrip_length_le (r : Nat) :
    (mergeLine (stripZeros (toLine r))).length ≤ 4 := by
  have h1 := mergeLine_length_le (stripZeros (toLine r))
  have h2 := strip_length_le (toLine r)
  rw [toLine_length] at h2
  omega

theorem refMoveLeft_lt (r : Nat) : refMoveLeft r < 2 ^ 16 := by
  unfold refMoveLeft
  apply packLine_lt
  intro x hx
  unfold padTo at hx
  rw [List.mem_append] at hx
  rcases hx with hx | hx
  · exact mergeLine_lt16 _ (strip_toLine_lt r) x hx
  · rw [List.mem_replicate] at hx
    omega

theorem toLine_refMoveLeft (r : Nat) :
    toLine (refMoveLeft r) = padTo 4 (mergeLine (stripZeros (toLine r))) := by
  unfold refMoveLeft
  apply toLine_packLine_pad _ (mergeStrip_length_le r)
  exact mergeLine_lt16 _ (strip_toLine_lt r)

theorem strip_toLine_refMoveLeft (r : Nat) :
    stripZeros (toLine (refMoveLeft r)) = mergeLine (stripZeros (toLine r)) := by
  rw [toLine_refMoveLeft, strip_padTo]
  exact strip_of_nonzero _ (mergeLine_nonzero _ (fun y hy => (strip_mem _ y hy).2))

theorem mergeLine_stab (s : List Nat) (h : s.length ≤ 4) :
    mergeLine (mergeLine (mergeLine (mergeLine s))) =
      mergeLine (mergeLine (mergeLine s)) := by
  by_cases h1 : mergeLine s = s
  · simp only [h1]
  · have l1 : (mergeLine s).length < s.length :=
      lt_of_le_of_ne (mergeLine_length_le s) (fun e => h1 (mergeLine_eq_of_length s e))
    by_cases h2 : mergeLine (mergeLine s) = mergeLine s
    · simp only [h2]
    · have l2 : (mergeLine (mergeLine s)).length < (mergeLine s).length :=
        lt_of_le_of_ne (mergeLine_length_le _) (fun e => h2 (mergeLine_eq_of_length _ e))
      by_cases h3 : mergeLine (mergeLine (mergeLine s)) = mergeLine (mergeLine s)
      · simp only [h3]
      · have l3 : (mergeLine (mergeLine (mergeLine s))).length <
            (mergeLine (mergeLine s)).length :=
          lt_of_le_of_ne (mergeLine_length_le _) (fun e => h3 (mergeLine_eq_of_length _ e))
        exact mergeLine_short _ (by omega)

theorem refMoveLeft_stab (r : Nat) :
    refMoveLeft (refMoveLeft (refMoveLeft (refMoveLeft r))) =
      refMoveLeft (refMoveLeft (refMoveLeft r)) := by
  have A2 : refMoveLeft (refMoveLeft r) =
      packLine (padTo 4 (mergeLine (mergeLine (stripZeros (toLine r))))) := by
    conv_lhs => rw [refMoveLeft]
    rw [strip_toLine_refMoveLeft]
  have A3 : refMoveLeft (refMoveLeft (refMoveLeft r)) =
      packLine (padTo 4 (mergeLine (mergeLine (mergeLine (stripZeros (toLine r)))))) := by
    conv_lhs => rw [refMoveLeft]
    rw [strip_toLine_refMoveLeft, strip_toLine_refMoveLeft]
  have A4 : refMoveLeft (refMoveLeft (refMoveLeft (refMoveLeft r))) =
      packLine (padTo 4 (mergeLine (mergeLine (mergeLine (mergeLine
        (stripZeros (toLine r))))))) := by
    conv_lhs => rw [refMoveLeft]
    rw [strip_toLine_refMoveLeft, strip_toLine_refMoveLeft, strip_toLine_refMoveLeft]
  rw [A4, A3, mergeLine_stab _ (by
    have := strip_length_le (toLine r)
    rw [toLine_length] at this
    omega)]

theorem strip_full (l : List Nat) (h : (stripZeros l).length = l.length) :
    stripZeros l = l := by
  have hA := length_strip_add l
  have hB : (l.filter (fun x => x = 0)).length = 0 := by omega
  rw [List.length_eq_zero] at hB
  rw [List.filter_eq_nil_iff] at hB
  apply strip_of_nonzero
  intro x hx
  have := hB x hx
  simpa using this

theorem refMoveLeft_zero_mem (r : Nat) (hr : r < 2 ^ 16) (hne : refMoveLeft r ≠ r) :
    0 ∈ toLine (refMoveLeft r) := by
  rw [toLine_refMoveLeft]
  rcases Nat.lt_or_ge (mergeLine (stripZeros (toLine r))).length 4 with hlen | hlen
  · exact zero_mem_padTo _ _ hlen
  · exfalso
    have hms := mergeStrip_length_le r
    have h4 : (mergeLine (stripZeros (toLine r))).length = 4 := by omega
    have hs1 := strip_length_le (toLine r)
    have hs2 := mergeLine_length_le (stripZeros (toLine r))
    rw [toLine_length] at hs1
    have hsl : (stripZeros (toLine r)).length = 4 := by omega
    have hstrip : stripZeros (toLine r) = toLine r :=
      strip_full _ (by rw [toLine_length]; exact hsl)
    have hmerge : mergeLine (stripZeros (toLine r)) = stripZeros (toLine r) :=
      mergeLine_eq_of_length _ (h4.trans hsl.symm)
    apply hne
    unfold refMoveLeft
    rw [hmerge, hstrip]
    rw [show padTo 4 (toLine r) = toLine r from by simp [padTo, toLine_length]]
    exact packLine_toLine r hr

theorem refMoveLeft_zeros_ge (r : Nat) :
    ((toLine r).filter (fun x => x = 0)).length ≤
      ((toLine (refMoveLeft r)).filter (fun x => x = 0)).length := by
  have hA := length_strip_add (toLine r)
  have hB := length_strip_add (toLine (refMoveLeft r))
  rw [toLine_length] at hA hB
  have h1 := strip_toLine_refMoveLeft r
  have h2 := mergeLine_length_le (stripZeros (toLine r))
  rw [h1] at hB
  omega

theorem refMoveLeft_ne_zero (r : Nat) (hr : r < 2 ^ 16) (h0 : refMoveLeft r = 0) : r = 0 := by
  have h1 := strip_toLine_refMoveLeft r
  rw [h0] at h1
  have h2 : stripZeros (toLine 0) = [] := rfl
  rw [h2] at h1
  rcases hs : stripZeros (toLine r) with _ | ⟨a, t⟩
  · rw [stripZeros, List.filter_eq_nil_iff] at hs
    have hn : ∀ x ∈ toLine r, x = 0 := by
      intro x hx
      have := hs x hx
      simpa using this
    have ht : toLine r = [0, 0, 0, 0] := by
      rw [toLine_eq_nibs] at hn ⊢
      rw [hn (nib r 0) (by simp), hn (nib r 1) (by simp), hn (nib r 2) (by simp),
        hn (nib r 3) (by simp)]
    rw [← packLine_toLine r hr, ht]
    rfl
  · rw [hs] at h1
    exact absurd h1.symm (mergeLine_ne_nil a t)

/-! ## Board-level row decomposition of the moves -/

theorem xor_aab (a b : Nat) : a ^^^ (a ^^^ b) = b := by
  rw [← Nat.xor_assoc, Nat.xor_self, Nat.zero_xor]

theorem mem_list1 {n x1 : Nat} (h1 : x1 < n) : ∀ x ∈ [x1], x < n := by
  intro x hx
  simp only [List.mem_cons, List.not_mem_nil, or_false] at hx
  rcases hx with rfl
  exact h1

theorem mem_list2 {n x1 x2 : Nat} (h1 : x1 < n) (h2 : x2 < n) : ∀ x ∈ [x1, x2], x < n := by
  intro x hx
  simp only [List.mem_cons, List.not_mem_nil, or_false] at hx
  rcases hx with rfl | rfl <;> assumption

theorem mem_list3 {n x1 x2 x3 : Nat} (h1 : x1 < n) (h2 : x2 < n) (h3 : x3 < n) :
    ∀ x ∈ [x1, x2, x3], x < n := by
  intro x hx
  simp only [List.mem_cons, List.not_mem_nil, or_false] at hx
  rcases hx with rfl | rfl | rfl <;> assumption

theorem mem_list4 {n x1 x2 x3 x4 : Nat} (h1 : x1 < n) (h2 : x2 < n) (h3 : x3 < n)
    (h4 : x4 < n) : ∀ x ∈ [x1, x2, x3, x4], x < n := by
  intro x hx
  simp only [List.mem_cons, List.not_mem_nil, or_false] at hx
  rcases hx with rfl | rfl | rfl | rfl <;> assumption

theorem getRow_eq (b k : Nat) : getRow b k = b / 2 ^ (16 * k) % 2 ^ 16 := by
  unfold getRow
  rw [Nat.shiftRight_eq_div_pow, show (0xFFFF : Nat) = 2 ^ 16 - 1 from by norm_num,
    Nat.and_pow_two_sub_one_eq_mod]

theorem getRow_lt (b k : Nat) : getRow b k < 2 ^ 16 := by
  rw [getRow_eq]
  exact Nat.mod_lt _ (Nat.two_pow_pos 16)

theorem toDig_rows (b : Nat) : toDig 16 4 b = [getRow b 0, getRow b 1, getRow b 2,
    getRow b 3] := by
  simp only [toDig, getRow_eq, Nat.div_div_eq_div_mul]
  norm_num

theorem board_rows (b : Nat) (h : b < 2 ^ 64) :
    b = ofDig 16 [getRow b 0, getRow b 1, getRow b 2, getRow b 3] := by
  rw [← toDig_rows]
  exact (ofDig_toDig 16 4 b (by norm_num; exact h)).symm

theorem row_move_result_lt (r : Nat) : row_move_result r < 2 ^ 16 := by
  rw [row_move_result_eq_ref]
  exact refMoveLeft_lt r

theorem reverse_row_lt (r : Nat) : reverse_row r < 2 ^ 16 :=
  Nat.mod_lt _ (Nat.two_pow_pos 16)

theorem ofDig_single (w x : Nat) : ofDig w [x] = x := by simp [ofDig]

theorem shiftLeft16_digits (x : Nat) (k : Nat) :
    x <<< (16 * k) = ofDig 16 (List.replicate k 0 ++ [x]) := by
  rw [← ofDig_shiftLeft, ofDig_single]

theorem xor_rows_core (q0 q1 q2 q3 m0 m1 m2 m3 : Nat)
    (hq0 : q0 < 2 ^ 16) (hq1 : q1 < 2 ^ 16) (hq2 : q2 < 2 ^ 16) (hq3 : q3 < 2 ^ 16)
    (hm0 : m0 < 2 ^ 16) (hm1 : m1 < 2 ^ 16) (hm2 : m2 < 2 ^ 16) (hm3 : m3 < 2 ^ 16) :
    ofDig 16 [q0, q1, q2, q3] ^^^ ((q0 ^^^ m0) <<< 0) ^^^ ((q1 ^^^ m1) <<< 16)
      ^^^ ((q2 ^^^ m2) <<< 32) ^^^ ((q3 ^^^ m3) <<< 48) = ofDig 16 [m0, m1, m2, m3] := by
  have ht0 : q0 ^^^ m0 < 2 ^ 16 := Nat.xor_lt_two_pow hq0 hm0
  have ht1 : q1 ^^^ m1 < 2 ^ 16 := Nat.xor_lt_two_pow hq1 hm1
  have ht2 : q2 ^^^ m2 < 2 ^ 16 := Nat.xor_lt_two_pow hq2 hm2
  have ht3 : q3 ^^^ m3 < 2 ^ 16 := Nat.xor_lt_two_pow hq3 hm3
  have s1 : (q1 ^^^ m1) <<< 16 = ofDig 16 [0, q1 ^^^ m1] := by
    have hs := shiftLeft16_digits (q1 ^^^ m1) 1
    norm_num at hs
    exact hs
  have s2 : (q2 ^^^ m2) <<< 32 = ofDig 16 [0, 0, q2 ^^^ m2] := by
    have hs := shiftLeft16_digits (q2 ^^^ m2) 2
    norm_num [List.replicate] at hs
    exact hs
  have s3 : (q3 ^^^ m3) <<< 48 = ofDig 16 [0, 0, 0, q3 ^^^ m3] := by
    have hs := shiftLeft16_digits (q3 ^^^ m3) 3
    norm_num [List.replicate] at hs
    exact hs
  rw [Nat.shiftLeft_zero, s1, s2, s3,
    show q0 ^^^ m0 = ofDig 16 [q0 ^^^ m0] from (ofDig_single _ _).symm,
    ofDig_dzip_xor 16 _ _ (mem_list4 hq0 hq1 hq2 hq3) (mem_list1 ht0)]
  simp only [dzip, List.map, xor_aab, Nat.xor_zero]
  rw [ofDig_dzip_xor 16 _ _ (mem_list4 hm0 hq1 hq2 hq3) (mem_list2 (by norm_num) ht1)]
  simp only [dzip, List.map, xor_aab, Nat.xor_zero]
  rw [ofDig_dzip_xor 16 _ _ (mem_list4 hm0 hm1 hq2 hq3)
    (mem_list3 (by norm_num) (by norm_num) ht2)]
  simp only [dzip, List.map, xor_aab, Nat.xor_zero]
  rw [ofDig_dzip_xor 16 _ _ (mem_list4 hm0 hm1 hm2 hq3)
    (mem_list4 (by norm_num) (by norm_num) (by norm_num) ht3)]
  simp only [dzip, List.map, xor_aab, Nat.xor_zero]

theorem execute_rows_generic (g : Nat → Nat) (hg : ∀ r, r < 2 ^ 16 → g r < 2 ^ 16)
    (b : Nat) (h : b < 2 ^ 64) :
    b ^^^ ((getRow b 0 ^^^ g (getRow b 0)) <<< 0)
      ^^^ ((getRow b 1 ^^^ g (getRow b 1)) <<< 16)
      ^^^ ((getRow b 2 ^^^ g (getRow b 2)) <<< 32)
      ^^^ ((getRow b 3 ^^^ g (getRow b 3)) <<< 48)
    = ofDig 16 [g (getRow b 0), g (getRow b 1), g (getRow b 2), g (getRow b 3)] := by
  have hcore := xor_rows_core (getRow b 0) (getRow b 1) (getRow b 2) (getRow b 3)
    (g (getRow b 0)) (g (getRow b 1)) (g (getRow b 2)) (g (getRow b 3))
    (getRow_lt b 0) (getRow_lt b 1) (getRow_lt b 2) (getRow_lt b 3)
    (hg _ (getRow_lt b 0)) (hg _ (getRow_lt b 1)) (hg _ (getRow_lt b 2))
    (hg _ (getRow_lt b 3))
  rw [← board_rows b h] at hcore
  exact hcore

theorem revMoveRow_lt (s : Nat) : revMoveRow s < 2 ^ 16 := reverse_row_lt _

theorem execute_move_2_rows (b : Nat) (h : b < 2 ^ 64) :
    execute_move_2 b = ofDig 16 [row_move_result (getRow b 0), row_move_result (getRow b 1),
      row_move_result (getRow b 2), row_move_result (getRow b 3)] := by
  have a0 : (b >>> 0) &&& ROW_MASK = getRow b 0 := by unfold getRow ROW_MASK; norm_num
  have a1 : (b >>> 16) &&& ROW_MASK = getRow b 1 := by unfold getRow ROW_MASK; norm_num
  have a2 : (b >>> 32) &&& ROW_MASK = getRow b 2 := by unfold getRow ROW_MASK; norm_num
  have a3 : (b >>> 48) &&& ROW_MASK = getRow b 3 := by unfold getRow ROW_MASK; norm_num
  show b ^^^ (row_left_table ((b >>> 0) &&& ROW_MASK) <<< 0)
      ^^^ (row_left_table ((b >>> 16) &&& ROW_MASK) <<< 16)
      ^^^ (row_left_table ((b >>> 32) &&& ROW_MASK) <<< 32)
      ^^^ (row_left_table ((b >>> 48) &&& ROW_MASK) <<< 48) = _
  rw [a0, a1, a2, a3]
  simp only [row_left_table]
  exact execute_rows_generic row_move_result (fun r _ => row_move_result_lt r) b h

theorem execute_move_3_rows (b : Nat) (h : b < 2 ^ 64) :
    execute_move_3 b = ofDig 16 [revMoveRow (getRow b 0), revMoveRow (getRow b 1),
      revMoveRow (getRow b 2), revMoveRow (getRow b 3)] := by
  have a0 : (b >>> 0) &&& ROW_MASK = getRow b 0 := by unfold getRow ROW_MASK; norm_num
  have a1 : (b >>> 16) &&& ROW_MASK = getRow b 1 := by unfold getRow ROW_MASK; norm_num
  have a2 : (b >>> 32) &&& ROW_MASK = getRow b 2 := by unfold getRow ROW_MASK; norm_num
  have a3 : (b >>> 48) &&& ROW_MASK = getRow b 3 := by unfold getRow ROW_MASK; norm_num
  show b ^^^ (row_right_table ((b >>> 0) &&& ROW_MASK) <<< 0)
      ^^^ (row_right_table ((b >>> 16) &&& ROW_MASK) <<< 16)
      ^^^ (row_right_table ((b >>> 32) &&& ROW_MASK) <<< 32)
      ^^^ (row_right_table ((b >>> 48) &&& ROW_MASK) <<< 48) = _
  rw [a0, a1, a2, a3]
  simp only [row_right_table]
  exact execute_rows_generic revMoveRow (fun r _ => revMoveRow_lt r) b h

theorem getRow_ofDig (l : List Nat) (hb : ∀ x ∈ l, x < 2 ^ 16) (k : Nat) :
    getRow (ofDig 16 l) k = ofDig 16 ((l.drop k).take 1) := by
  rw [getRow_eq]
  have h1 : ofDig 16 l / 2 ^ (16 * k) = ofDig 16 (l.drop k) := by
    rw [← Nat.shiftRight_eq_div_pow]
    exact ofDig_shiftRight 16 k l hb
  rw [h1, show (2 : Nat) ^ 16 = 2 ^ (16 * 1) from by norm_num]
  exact ofDig_mod 16 1 (l.drop k) (fun x hx => hb x (List.mem_of_mem_drop hx))

theorem mirror_lt (b : Nat) : mirror b < 2 ^ 64 := by
  have h := ofDig_lt 16 [reverse_row (getRow b 0), reverse_row (getRow b 1),
    reverse_row (getRow b 2), reverse_row (getRow b 3)]
    (mem_list4 (reverse_row_lt _) (reverse_row_lt _) (reverse_row_lt _) (reverse_row_lt _))
  norm_num at h
  exact h

theorem getRow_mirror (b : Nat) (k : Nat) (hk : k < 4) :
    getRow (mirror b) k = reverse_row (getRow b k) := by
  unfold mirror
  rw [getRow_ofDig _ (mem_list4 (reverse_row_lt _) (reverse_row_lt _) (reverse_row_lt _)
    (reverse_row_lt _)) k]
  interval_cases k <;> simp [ofDig_single]

theorem execute_move_3_eq_mirror (b : Nat) (h : b < 2 ^ 64) :
    execute_move_3 b = mirror (execute_move_2 (mirror b)) := by
  rw [execute_move_3_rows b h, execute_move_2_rows (mirror b) (mirror_lt b),
    getRow_mirror b 0 (by norm_num), getRow_mirror b 1 (by norm_num),
    getRow_mirror b 2 (by norm_num), getRow_mirror b 3 (by norm_num)]
  have hb : ∀ x ∈ [row_move_result (reverse_row (getRow b 0)),
      row_move_result (reverse_row (getRow b 1)), row_move_result (reverse_row (getRow b 2)),
      row_move_result (reverse_row (getRow b 3))], x < 2 ^ 16 :=
    mem_list4 (row_move_result_lt _) (row_move_result_lt _) (row_move_result_lt _)
      (row_move_result_lt _)
  unfold mirror
  rw [getRow_ofDig _ hb 0, getRow_ofDig _ hb 1, getRow_ofDig _ hb 2, getRow_ofDig _ hb 3]
  simp only [List.drop, List.take, ofDig_single]
  rfl

theorem shiftRight_and_distrib (x y s : Nat) : (x &&& y) >>> s = (x >>> s) &&& (y >>> s) := by
  apply Nat.eq_of_testBit_eq
  intro j
  simp [Nat.testBit_shiftRight, Nat.testBit_and]

theorem shiftRight_or_distrib (x y s : Nat) : (x ||| y) >>> s = (x >>> s) ||| (y >>> s) := by
  apply Nat.eq_of_testBit_eq
  intro j
  simp [Nat.testBit_shiftRight, Nat.testBit_or]

theorem shiftRight_xor_distrib (x y s : Nat) : (x ^^^ y) >>> s = (x >>> s) ^^^ (y >>> s) := by
  apply Nat.eq_of_testBit_eq
  intro j
  simp [Nat.testBit_shiftRight, Nat.testBit_xor]

theorem and_mask_and (x y m : Nat) : (x &&& y) &&& m = (x &&& m) &&& (y &&& m) := by
  apply Nat.eq_of_testBit_eq
  intro j
  simp only [Nat.testBit_and]
  cases x.testBit j <;> cases y.testBit j <;> cases m.testBit j <;> rfl

theorem or_mask_and (x y m : Nat) : (x ||| y) &&& m = (x &&& m) ||| (y &&& m) := by
  apply Nat.eq_of_testBit_eq
  intro j
  simp only [Nat.testBit_and, Nat.testBit_or]
  cases x.testBit j <;> cases y.testBit j <;> cases m.testBit j <;> rfl

theorem xor_mask_and (x y m : Nat) : (x ^^^ y) &&& m = (x &&& m) ^^^ (y &&& m) := by
  apply Nat.eq_of_testBit_eq
  intro j
  simp only [Nat.testBit_and, Nat.testBit_xor]
  cases x.testBit j <;> cases y.testBit j <;> cases m.testBit j <;> rfl

theorem nib_as_shift (z i : Nat) : nib z i = (z >>> (4 * i)) &&& 15 := by
  unfold nib
  rw [Nat.shiftRight_eq_div_pow, and15_mod, show (2 : Nat) ^ (4 * i) = 16 ^ i from by rw [Nat.pow_mul]]

theorem nib_and (x y i : Nat) : nib (x &&& y) i = nib x i &&& nib y i := by
  rw [nib_as_shift, nib_as_shift, nib_as_shift, shiftRight_and_distrib, and_mask_and]

theorem nib_or (x y i : Nat) : nib (x ||| y) i = nib x i ||| nib y i := by
  rw [nib_as_shift, nib_as_shift, nib_as_shift, shiftRight_or_distrib, or_mask_and]

theorem nib_xor (x y i : Nat) : nib (x ^^^ y) i = nib x i ^^^ nib y i := by
  rw [nib_as_shift, nib_as_shift, nib_as_shift, shiftRight_xor_distrib, xor_mask_and]

theorem nib_shr (x k i : Nat) : nib (x >>> (4 * k)) i = nib x (i + k) := by
  unfold nib
  rw [Nat.shiftRight_eq_div_pow, Nat.div_div_eq_div_mul]
  congr 2
  rw [show (2 : Nat) ^ (4 * k) = 16 ^ k from by rw [Nat.pow_mul], ← pow_add]
  congr 1
  omega

theorem nib_shl (x k i : Nat) (h : k ≤ i) : nib (x <<< (4 * k)) i = nib x (i - k) := by
  unfold nib
  rw [Nat.shiftLeft_eq]
  congr 1
  rw [show (2 : Nat) ^ (4 * k) = 16 ^ k from by rw [Nat.pow_mul],
    show (16 : Nat) ^ i = 16 ^ k * 16 ^ (i - k) from by rw [← pow_add]; congr 1; omega,
    Nat.mul_comm x (16 ^ k), Nat.mul_div_mul_left _ _ (pow_pos (by norm_num) k)]

theorem nib_shl_lt (x k i : Nat) (h : i < k) : nib (x <<< (4 * k)) i = 0 := by
  unfold nib
  rw [Nat.shiftLeft_eq]
  rw [show (2 : Nat) ^ (4 * k) = 16 ^ i * (16 * 16 ^ (k - i - 1)) from by
    rw [show (16 : Nat) * 16 ^ (k - i - 1) = 16 ^ (k - i) from by
        rw [← Nat.pow_succ']; congr 1; omega,
      ← pow_add, show i + (k - i) = k from by omega, Nat.pow_mul]]
  rw [show x * (16 ^ i * (16 * 16 ^ (k - i - 1))) =
      16 ^ i * (16 * (x * 16 ^ (k - i - 1))) from by ring,
    Nat.mul_div_cancel_left _ (pow_pos (by norm_num) i), Nat.mul_mod_right]

theorem nib_high_zero (r i : Nat) (hr : r < 2 ^ 16) (hi : 4 ≤ i) : nib r i = 0 := by
  unfold nib
  rw [Nat.div_eq_of_lt, Nat.zero_mod]
  calc r < 2 ^ 16 := hr
    _ ≤ 16 ^ i := by
      rw [show (16 : Nat) ^ i = 2 ^ (4 * i) from by rw [Nat.pow_mul]]
      exact Nat.pow_le_pow_right (by norm_num) (by omega)

theorem nib_ext (b c : Nat) (hb : b < 2 ^ 64) (hc : c < 2 ^ 64)
    (h : ∀ i, i < 16 → nib b i = nib c i) : b = c := by
  rw [board_nibs b hb, board_nibs c hc,
    h 0 (by norm_num), h 1 (by norm_num), h 2 (by norm_num), h 3 (by norm_num),
    h 4 (by norm_num), h 5 (by norm_num), h 6 (by norm_num), h 7 (by norm_num),
    h 8 (by norm_num), h 9 (by norm_num), h 10 (by norm_num), h 11 (by norm_num),
    h 12 (by norm_num), h 13 (by norm_num), h 14 (by norm_num), h 15 (by norm_num)]


theorem mod16_and15 (x : Nat) : x % 16 &&& 15 = x % 16 := by
  rw [and15_mod]
  omega

theorem nib_shl4 (x i : Nat) (h : 1 ≤ i) : nib (x <<< 4) i = nib x (i - 1) := by
  have h2 := nib_shl x 1 i h
  norm_num at h2
  exact h2

theorem nib_shl4_lt (x i : Nat) (h : i < 1) : nib (x <<< 4) i = 0 := by
  have h2 := nib_shl_lt x 1 i h
  norm_num at h2
  exact h2

theorem nib_shl8 (x i : Nat) (h : 2 ≤ i) : nib (x <<< 8) i = nib x (i - 2) := by
  have h2 := nib_shl x 2 i h
  norm_num at h2
  exact h2

theorem nib_shl8_lt (x i : Nat) (h : i < 2) : nib (x <<< 8) i = 0 := by
  have h2 := nib_shl_lt x 2 i h
  norm_num at h2
  exact h2

theorem nib_shl12 (x i : Nat) (h : 3 ≤ i) : nib (x <<< 12) i = nib x (i - 3) := by
  have h2 := nib_shl x 3 i h
  norm_num at h2
  exact h2

theorem nib_shl12_lt (x i : Nat) (h : i < 3) : nib (x <<< 12) i = 0 := by
  have h2 := nib_shl_lt x 3 i h
  norm_num at h2
  exact h2

theorem nib_shl24 (x i : Nat) (h : 6 ≤ i) : nib (x <<< 24) i = nib x (i - 6) := by
  have h2 := nib_shl x 6 i h
  norm_num at h2
  exact h2

theorem nib_shl24_lt (x i : Nat) (h : i < 6) : nib (x <<< 24) i = 0 := by
  have h2 := nib_shl_lt x 6 i h
  norm_num at h2
  exact h2

theorem nib_shl36 (x i : Nat) (h : 9 ≤ i) : nib (x <<< 36) i = nib x (i - 9) := by
  have h2 := nib_shl x 9 i h
  norm_num at h2
  exact h2

theorem nib_shl36_lt (x i : Nat) (h : i < 9) : nib (x <<< 36) i = 0 := by
  have h2 := nib_shl_lt x 9 i h
  norm_num at h2
  exact h2

theorem nib_shr12 (x i : Nat) : nib (x >>> 12) i = nib x (i + 3) := by
  have h2 := nib_shr x 3 i
  norm_num at h2
  exact h2

theorem nib_shr24 (x i : Nat) : nib (x >>> 24) i = nib x (i + 6) := by
  have h2 := nib_shr x 6 i
  norm_num at h2
  exact h2


theorem nib_shl4_ite (x i : Nat) : nib (x <<< 4) i = if 1 ≤ i then nib x (i - 1) else 0 := by
  by_cases h : 1 ≤ i
  · rw [if_pos h, nib_shl4 x i h]
  · rw [if_neg h, nib_shl4_lt x i (by omega)]

theorem nib_shl8_ite (x i : Nat) : nib (x <<< 8) i = if 2 ≤ i then nib x (i - 2) else 0 := by
  by_cases h : 2 ≤ i
  · rw [if_pos h, nib_shl8 x i h]
  · rw [if_neg h, nib_shl8_lt x i (by omega)]

theorem nib_shl12_ite (x i : Nat) : nib (x <<< 12) i = if 3 ≤ i then nib x (i - 3) else 0 := by
  by_cases h : 3 ≤ i
  · rw [if_pos h, nib_shl12 x i h]
  · rw [if_neg h, nib_shl12_lt x i (by omega)]

theorem nib_shl24_ite (x i : Nat) : nib (x <<< 24) i = if 6 ≤ i then nib x (i - 6) else 0 := by
  by_cases h : 6 ≤ i
  · rw [if_pos h, nib_shl24 x i h]
  · rw [if_neg h, nib_shl24_lt x i (by omega)]

theorem nib_shl36_ite (x i : Nat) : nib (x <<< 36) i = if 9 ≤ i then nib x (i - 9) else 0 := by
  by_cases h : 9 ≤ i
  · rw [if_pos h, nib_shl36 x i h]
  · rw [if_neg h, nib_shl36_lt x i (by omega)]

theorem transpose_nib (b : Nat) (i : Nat) (hi : i < 16) :
    nib (transpose b) i = nib b (4 * (i % 4) + i / 4) := by
  interval_cases i <;>
    (simp only [transpose, nib_or, nib_and, nib_shl12_ite, nib_shl24_ite, nib_shr12, nib_shr24]
     norm_num [nib, mod16_and15, or_mask_and, Nat.and_zero, Nat.zero_and, Nat.or_zero,
       Nat.zero_or])


theorem transpose_lt (b : Nat) : transpose b < 2 ^ 64 := by
  simp only [transpose]
  apply Nat.or_lt_two_pow
  · apply Nat.or_lt_two_pow
    · exact lt_of_le_of_lt Nat.and_le_right (by norm_num)
    · rw [Nat.shiftRight_eq_div_pow]
      exact lt_of_le_of_lt (Nat.div_le_self _ _)
        (lt_of_le_of_lt Nat.and_le_right (by norm_num))
  · rw [Nat.shiftLeft_eq]
    apply lt_of_le_of_lt (Nat.mul_le_mul_right _ Nat.and_le_right)
    norm_num

theorem transpose_transpose (b : Nat) (h : b < 2 ^ 64) : transpose (transpose b) = b := by
  apply nib_ext _ _ (transpose_lt _) h
  intro i hi
  rw [transpose_nib _ i hi, transpose_nib b _ (by omega)]
  congr 1
  omega

theorem unpack_col_nib (r : Nat) (hr : r < 2 ^ 16) (i : Nat) (hi : i < 16) :
    nib (unpack_col r) i = if i % 4 = 0 then nib r (i / 4) else 0 := by
  have hr2 : r < 65536 := by norm_num at hr; exact hr
  have hz4 : r / 65536 % 16 = 0 := by omega
  have hz5 : r / 1048576 % 16 = 0 := by omega
  have hz6 : r / 16777216 % 16 = 0 := by omega
  have hz7 : r / 268435456 % 16 = 0 := by omega
  have hz8 : r / 4294967296 % 16 = 0 := by omega
  have hz9 : r / 68719476736 % 16 = 0 := by omega
  have hz10 : r / 1099511627776 % 16 = 0 := by omega
  have hz11 : r / 17592186044416 % 16 = 0 := by omega
  have hz12 : r / 281474976710656 % 16 = 0 := by omega
  have hz13 : r / 4503599627370496 % 16 = 0 := by omega
  have hz14 : r / 72057594037927936 % 16 = 0 := by omega
  have hz15 : r / 1152921504606846976 % 16 = 0 := by omega
  interval_cases i <;>
    (simp only [unpack_col, COL_MASK, nib_or, nib_and, nib_shl12_ite, nib_shl24_ite,
      nib_shl36_ite]
     norm_num [nib, mod16_and15, or_mask_and, Nat.and_zero, Nat.zero_and, Nat.or_zero,
       Nat.zero_or, hz4, hz5, hz6, hz7, hz8, hz9, hz10, hz11, hz12, hz13, hz14, hz15])


theorem transpose_xor (x y : Nat) : transpose (x ^^^ y) = transpose x ^^^ transpose y := by
  apply nib_ext _ _ (transpose_lt _) (Nat.xor_lt_two_pow (transpose_lt x) (transpose_lt y))
  intro i hi
  rw [nib_xor, transpose_nib _ i hi, transpose_nib _ i hi, transpose_nib _ i hi, nib_xor]

theorem unpack_col_lt (x : Nat) : unpack_col x < 2 ^ 64 := by
  unfold unpack_col COL_MASK
  exact lt_of_le_of_lt Nat.and_le_right (by norm_num)

theorem unpack_xor (x y : Nat) (hx : x < 2 ^ 16) (hy : y < 2 ^ 16) :
    unpack_col (x ^^^ y) = unpack_col x ^^^ unpack_col y := by
  apply nib_ext _ _ (unpack_col_lt _)
    (Nat.xor_lt_two_pow (unpack_col_lt x) (unpack_col_lt y))
  intro i hi
  rw [nib_xor, unpack_col_nib _ (Nat.xor_lt_two_pow hx hy) i hi, unpack_col_nib _ hx i hi,
    unpack_col_nib _ hy i hi, nib_xor]
  split <;> simp

theorem nib_shl16_ite (x i : Nat) : nib (x <<< 16) i = if 4 ≤ i then nib x (i - 4) else 0 := by
  by_cases h : 4 ≤ i
  · rw [if_pos h]
    have h2 := nib_shl x 4 i h
    norm_num at h2
    exact h2
  · rw [if_neg h]
    have h2 := nib_shl_lt x 4 i (by omega)
    norm_num at h2
    exact h2

theorem nib_shl32_ite (x i : Nat) : nib (x <<< 32) i = if 8 ≤ i then nib x (i - 8) else 0 := by
  by_cases h : 8 ≤ i
  · rw [if_pos h]
    have h2 := nib_shl x 8 i h
    norm_num at h2
    exact h2
  · rw [if_neg h]
    have h2 := nib_shl_lt x 8 i (by omega)
    norm_num at h2
    exact h2

theorem nib_shl48_ite (x i : Nat) : nib (x <<< 48) i = if 12 ≤ i then nib x (i - 12) else 0 := by
  by_cases h : 12 ≤ i
  · rw [if_pos h]
    have h2 := nib_shl x 12 i h
    norm_num at h2
    exact h2
  · rw [if_neg h]
    have h2 := nib_shl_lt x 12 i (by omega)
    norm_num at h2
    exact h2

theorem shl_lt_64 (v : Nat) (hv : v < 2 ^ 52) (k : Nat) (hk : k ≤ 12) : v <<< k < 2 ^ 64 := by
  rw [Nat.shiftLeft_eq]
  calc v * 2 ^ k ≤ v * 2 ^ 12 :=
        Nat.mul_le_mul_left v (Nat.pow_le_pow_right (by norm_num) hk)
    _ < 2 ^ 52 * 2 ^ 12 := Nat.mul_lt_mul_of_pos_right hv (by norm_num)
    _ = 2 ^ 64 := by norm_num

theorem unpack_col_lt52 (x : Nat) : unpack_col x < 2 ^ 52 := by
  unfold unpack_col COL_MASK
  exact lt_of_le_of_lt Nat.and_le_right (by norm_num)

theorem transpose_shift_row (x : Nat) (hx : x < 2 ^ 16) (k : Nat) (hk : k < 4) :
    transpose (x <<< (16 * k)) = unpack_col x <<< (4 * k) := by
  have hu := unpack_col_nib x hx
  interval_cases k <;>
    (apply nib_ext _ _ (transpose_lt _) (shl_lt_64 _ (unpack_col_lt52 x) _ (by norm_num))
     intro i hi
     rw [transpose_nib _ i hi]
     interval_cases i <;>
       (norm_num [nib_shl4_ite, nib_shl8_ite, nib_shl12_ite, nib_shl16_ite, nib_shl32_ite,
          nib_shl48_ite, Nat.shiftLeft_zero] <;>
        (try rw [hu _ (by norm_num)]) <;> norm_num [nib] <;> omega))


theorem transpose_shl0 (x : Nat) (hx : x < 2 ^ 16) :
    transpose (x <<< 0) = unpack_col x <<< 0 :=
  transpose_shift_row x hx 0 (by norm_num)

theorem transpose_shl16 (x : Nat) (hx : x < 2 ^ 16) :
    transpose (x <<< 16) = unpack_col x <<< 4 :=
  transpose_shift_row x hx 1 (by norm_num)

theorem transpose_shl32 (x : Nat) (hx : x < 2 ^ 16) :
    transpose (x <<< 32) = unpack_col x <<< 8 :=
  transpose_shift_row x hx 2 (by norm_num)

theorem transpose_shl48 (x : Nat) (hx : x < 2 ^ 16) :
    transpose (x <<< 48) = unpack_col x <<< 12 :=
  transpose_shift_row x hx 3 (by norm_num)

theorem execute_move_0_eq_transpose (b : Nat) (hb : b < 2 ^ 64) :
    execute_move_0 b = transpose (execute_move_2 (transpose b)) := by
  have hq : ∀ k, getRow (transpose b) k < 2 ^ 16 := fun k => getRow_lt _ k
  have hl : ∀ k, row_left_table (getRow (transpose b) k) < 2 ^ 16 := fun k =>
    Nat.xor_lt_two_pow (hq k) (row_move_result_lt _)
  have h2 : execute_move_2 (transpose b) =
      transpose b ^^^ (row_left_table (getRow (transpose b) 0) <<< 0)
        ^^^ (row_left_table (getRow (transpose b) 1) <<< 16)
        ^^^ (row_left_table (getRow (transpose b) 2) <<< 32)
        ^^^ (row_left_table (getRow (transpose b) 3) <<< 48) := rfl
  rw [h2, transpose_xor, transpose_xor, transpose_xor, transpose_xor,
    transpose_transpose b hb,
    transpose_shl0 _ (hl 0), transpose_shl16 _ (hl 1), transpose_shl32 _ (hl 2),
    transpose_shl48 _ (hl 3)]
  show b ^^^ (col_up_table (getRow (transpose b) 0) <<< 0)
      ^^^ (col_up_table (getRow (transpose b) 1) <<< 4)
      ^^^ (col_up_table (getRow (transpose b) 2) <<< 8)
      ^^^ (col_up_table (getRow (transpose b) 3) <<< 12) = _
  simp only [col_up_table, row_left_table]
  rw [unpack_xor _ _ (hq 0) (row_move_result_lt _), unpack_xor _ _ (hq 1) (row_move_result_lt _),
    unpack_xor _ _ (hq 2) (row_move_result_lt _), unpack_xor _ _ (hq 3) (row_move_result_lt _)]

theorem execute_move_1_eq_transpose (b : Nat) (hb : b < 2 ^ 64) :
    execute_move_1 b = transpose (execute_move_3 (transpose b)) := by
  have hq : ∀ k, getRow (transpose b) k < 2 ^ 16 := fun k => getRow_lt _ k
  have hl : ∀ k, row_right_table (getRow (transpose b) k) < 2 ^ 16 := fun k =>
    Nat.xor_lt_two_pow (hq k) (reverse_row_lt _)
  have h3 : execute_move_3 (transpose b) =
      transpose b ^^^ (row_right_table (getRow (transpose b) 0) <<< 0)
        ^^^ (row_right_table (getRow (transpose b) 1) <<< 16)
        ^^^ (row_right_table (getRow (transpose b) 2) <<< 32)
        ^^^ (row_right_table (getRow (transpose b) 3) <<< 48) := rfl
  rw [h3, transpose_xor, transpose_xor, transpose_xor, transpose_xor,
    transpose_transpose b hb,
    transpose_shl0 _ (hl 0), transpose_shl16 _ (hl 1), transpose_shl32 _ (hl 2),
    transpose_shl48 _ (hl 3)]
  show b ^^^ (col_down_table (getRow (transpose b) 0) <<< 0)
      ^^^ (col_down_table (getRow (transpose b) 1) <<< 4)
      ^^^ (col_down_table (getRow (transpose b) 2) <<< 8)
      ^^^ (col_down_table (getRow (transpose b) 3) <<< 12) = _
  simp only [col_down_table, row_right_table]
  rw [unpack_xor _ _ (hq 0) (reverse_row_lt _), unpack_xor _ _ (hq 1) (reverse_row_lt _),
    unpack_xor _ _ (hq 2) (reverse_row_lt _), unpack_xor _ _ (hq 3) (reverse_row_lt _)]

theorem nib_shr4 (x i : Nat) : nib (x >>> 4) i = nib x (i + 1) := by
  have h := nib_shr x 1 i
  norm_num at h
  exact h

theorem nib_mod16pow4 (x i : Nat) (hi : i < 4) : nib (x % 2 ^ 16) i = nib x i := by
  interval_cases i <;> ((simp only [nib]; norm_num) <;> omega)

theorem reverse_row_nib (r : Nat) (hr : r < 2 ^ 16) (i : Nat) (hi : i < 4) :
    nib (reverse_row r) i = nib r (3 - i) := by
  have hr2 : r < 65536 := by omega
  have hh4 : r / 65536 % 16 = 0 := by omega
  have hh5 : r / 1048576 % 16 = 0 := by omega
  have hh6 : r / 16777216 % 16 = 0 := by omega
  interval_cases i <;>
    (simp only [reverse_row]
     rw [nib_mod16pow4 _ _ (by norm_num)]
     simp only [nib_or, nib_and, nib_shr12, nib_shr4, nib_shl4_ite, nib_shl12_ite]
     norm_num [nib, mod16_and15, hh4, hh5, hh6])

theorem reverse_reverse (r : Nat) (hr : r < 2 ^ 16) : reverse_row (reverse_row r) = r := by
  apply nib_ext _ _ (lt_trans (reverse_row_lt _) (by norm_num)) (lt_trans hr (by norm_num))
  intro i hi
  by_cases h4 : i < 4
  · rw [reverse_row_nib _ (reverse_row_lt r) i h4, reverse_row_nib r hr _ (by omega)]
    congr 1
    omega
  · rw [nib_high_zero _ i (reverse_row_lt _) (by omega), nib_high_zero r i hr (by omega)]

theorem row_right_table_construction (row : Nat) (h : row < 2 ^ 16) :
    row_right_table (reverse_row row) =
      reverse_row row ^^^ reverse_row (row_move_result row) := by
  unfold row_right_table
  rw [reverse_reverse row h]


theorem getRow_ofDig4 (x0 x1 x2 x3 : Nat) (hb : ∀ x ∈ [x0, x1, x2, x3], x < 2 ^ 16)
    (k : Nat) (hk : k < 4) :
    getRow (ofDig 16 [x0, x1, x2, x3]) k = [x0, x1, x2, x3].getD k 0 := by
  interval_cases k <;> (rw [getRow_ofDig _ hb]; simp [ofDig])

theorem rowMap_lt (f : Nat → Nat) (hf : ∀ r, f r < 2 ^ 16) (b : Nat) :
    rowMap f b < 2 ^ 64 := by
  unfold rowMap
  have h := ofDig_lt 16 [f (getRow b 0), f (getRow b 1), f (getRow b 2), f (getRow b 3)]
    (by intro x hx
        simp only [List.mem_cons, List.not_mem_nil, or_false] at hx
        rcases hx with h | h | h | h <;> (subst h; exact hf _))
  have e : (16 * ([f (getRow b 0), f (getRow b 1), f (getRow b 2),
      f (getRow b 3)] : List Nat).length) = 64 := by norm_num
  rw [e] at h
  exact h

theorem getRow_rowMap (f : Nat → Nat) (hf : ∀ r, f r < 2 ^ 16) (c k : Nat) (hk : k < 4) :
    getRow (rowMap f c) k = f (getRow c k) := by
  show getRow (ofDig 16 [f (getRow c 0), f (getRow c 1), f (getRow c 2), f (getRow c 3)]) k
    = f (getRow c k)
  rw [getRow_ofDig4 _ _ _ _
    (by intro x hx
        simp only [List.mem_cons, List.not_mem_nil, or_false] at hx
        rcases hx with h | h | h | h <;> (subst h; exact hf _)) k hk]
  interval_cases k <;> rfl

theorem rowMap_stab (f : Nat → Nat) (hf : ∀ r, f r < 2 ^ 16)
    (hstab : ∀ r, r < 2 ^ 16 → f (f (f (f r))) = f (f (f r))) (b : Nat) :
    rowMap f (rowMap f (rowMap f (rowMap f b))) = rowMap f (rowMap f (rowMap f b)) := by
  have hg0 := fun c => getRow_rowMap f hf c 0 (by norm_num)
  have hg1 := fun c => getRow_rowMap f hf c 1 (by norm_num)
  have hg2 := fun c => getRow_rowMap f hf c 2 (by norm_num)
  have hg3 := fun c => getRow_rowMap f hf c 3 (by norm_num)
  show ofDig 16 [f (getRow (rowMap f (rowMap f (rowMap f b))) 0),
                 f (getRow (rowMap f (rowMap f (rowMap f b))) 1),
                 f (getRow (rowMap f (rowMap f (rowMap f b))) 2),
                 f (getRow (rowMap f (rowMap f (rowMap f b))) 3)] =
       ofDig 16 [f (getRow (rowMap f (rowMap f b)) 0),
                 f (getRow (rowMap f (rowMap f b)) 1),
                 f (getRow (rowMap f (rowMap f b)) 2),
                 f (getRow (rowMap f (rowMap f b)) 3)]
  rw [hg0, hg0, hg0, hg1, hg1, hg1, hg2, hg2, hg2, hg3, hg3, hg3]
  rw [hstab _ (getRow_lt b 0), hstab _ (getRow_lt b 1),
      hstab _ (getRow_lt b 2), hstab _ (getRow_lt b 3)]

theorem row_move_result_stab (r : Nat) :
    row_move_result (row_move_result (row_move_result (row_move_result r))) =
      row_move_result (row_move_result (row_move_result r)) := by
  simp only [row_move_result_eq_ref]
  exact refMoveLeft_stab r

theorem revMoveRow_stab (s : Nat) :
    revMoveRow (revMoveRow (revMoveRow (revMoveRow s))) =
      revMoveRow (revMoveRow (revMoveRow s)) := by
  unfold revMoveRow
  repeat rw [reverse_reverse _ (row_move_result_lt _)]
  exact congrArg reverse_row (row_move_result_stab _)

theorem execute_move_2_eq_rowMap (b : Nat) (h : b < 2 ^ 64) :
    execute_move_2 b = rowMap row_move_result b := execute_move_2_rows b h

theorem execute_move_3_eq_rowMap (b : Nat) (h : b < 2 ^ 64) :
    execute_move_3 b = rowMap revMoveRow b := execute_move_3_rows b h

theorem execute_move_2_lt (b : Nat) (h : b < 2 ^ 64) : execute_move_2 b < 2 ^ 64 := by
  rw [execute_move_2_eq_rowMap b h]
  exact rowMap_lt _ row_move_result_lt b

theorem execute_move_3_lt (b : Nat) (h : b < 2 ^ 64) : execute_move_3 b < 2 ^ 64 := by
  rw [execute_move_3_eq_rowMap b h]
  exact rowMap_lt _ revMoveRow_lt b

theorem execute_move_2_stab (b : Nat) (h : b < 2 ^ 64) :
    execute_move_2 (execute_move_2 (execute_move_2 (execute_move_2 b))) =
      execute_move_2 (execute_move_2 (execute_move_2 b)) := by
  have k1 := execute_move_2_eq_rowMap b h
  have k2 := execute_move_2_eq_rowMap _ (rowMap_lt _ row_move_result_lt b)
  have k3 := execute_move_2_eq_rowMap _ (rowMap_lt _ row_move_result_lt (rowMap row_move_result b))
  have k4 := execute_move_2_eq_rowMap _
    (rowMap_lt _ row_move_result_lt (rowMap row_move_result (rowMap row_move_result b)))
  rw [k1, k2, k3, k4]
  exact rowMap_stab _ row_move_result_lt (fun r _ => row_move_result_stab r) b

theorem execute_move_3_stab (b : Nat) (h : b < 2 ^ 64) :
    execute_move_3 (execute_move_3 (execute_move_3 (execute_move_3 b))) =
      execute_move_3 (execute_move_3 (execute_move_3 b)) := by
  have k1 := execute_move_3_eq_rowMap b h
  have k2 := execute_move_3_eq_rowMap _ (rowMap_lt _ revMoveRow_lt b)
  have k3 := execute_move_3_eq_rowMap _ (rowMap_lt _ revMoveRow_lt (rowMap revMoveRow b))
  have k4 := execute_move_3_eq_rowMap _
    (rowMap_lt _ revMoveRow_lt (rowMap revMoveRow (rowMap revMoveRow b)))
  rw [k1, k2, k3, k4]
  exact rowMap_stab _ revMoveRow_lt (fun r _ => revMoveRow_stab r) b

theorem execute_move_0_stab (b : Nat) (h : b < 2 ^ 64) :
    execute_move_0 (execute_move_0 (execute_move_0 (execute_move_0 b))) =
      execute_move_0 (execute_move_0 (execute_move_0 b)) := by
  have ht : transpose b < 2 ^ 64 := transpose_lt b
  have c1 := execute_move_0_eq_transpose b h
  have c2 : execute_move_0 (transpose (execute_move_2 (transpose b))) =
      transpose (execute_move_2 (execute_move_2 (transpose b))) := by
    rw [execute_move_0_eq_transpose _ (transpose_lt _),
        transpose_transpose _ (execute_move_2_lt _ ht)]
  have c3 : execute_move_0 (transpose (execute_move_2 (execute_move_2 (transpose b)))) =
      transpose (execute_move_2 (execute_move_2 (execute_move_2 (transpose b)))) := by
    rw [execute_move_0_eq_transpose _ (transpose_lt _),
        transpose_transpose _ (execute_move_2_lt _ (execute_move_2_lt _ ht))]
  have c4 : execute_move_0
      (transpose (execute_move_2 (execute_move_2 (execute_move_2 (transpose b))))) =
      transpose (execute_move_2 (execute_move_2 (execute_move_2 (execute_move_2 (transpose b))))) := by
    rw [execute_move_0_eq_transpose _ (transpose_lt _),
        transpose_transpose _ (execute_move_2_lt _ (execute_move_2_lt _ (execute_move_2_lt _ ht)))]
  rw [c1, c2, c3, c4]
  exact congrArg transpose (execute_move_2_stab _ ht)

theorem execute_move_1_stab (b : Nat) (h : b < 2 ^ 64) :
    execute_move_1 (execute_move_1 (execute_move_1 (execute_move_1 b))) =
      execute_move_1 (execute_move_1 (execute_move_1 b)) := by
  have ht : transpose b < 2 ^ 64 := transpose_lt b
  have c1 := execute_move_1_eq_transpose b h
  have c2 : execute_move_1 (transpose (execute_move_3 (transpose b))) =
      transpose (execute_move_3 (execute_move_3 (transpose b))) := by
    rw [execute_move_1_eq_transpose _ (transpose_lt _),
        transpose_transpose _ (execute_move_3_lt _ ht)]
  have c3 : execute_move_1 (transpose (execute_move_3 (execute_move_3 (transpose b)))) =
      transpose (execute_move_3 (execute_move_3 (execute_move_3 (transpose b)))) := by
    rw [execute_move_1_eq_transpose _ (transpose_lt _),
        transpose_transpose _ (execute_move_3_lt _ (execute_move_3_lt _ ht))]
  have c4 : execute_move_1
      (transpose (execute_move_3 (execute_move_3 (execute_move_3 (transpose b))))) =
      transpose (execute_move_3 (execute_move_3 (execute_move_3 (execute_move_3 (transpose b))))) := by
    rw [execute_move_1_eq_transpose _ (transpose_lt _),
        transpose_transpose _ (execute_move_3_lt _ (execute_move_3_lt _ (execute_move_3_lt _ ht)))]
  rw [c1, c2, c3, c4]
  exact congrArg transpose (execute_move_3_stab _ ht)


theorem ofDig_add (w : Nat) : ∀ l1 l2 : List Nat,
    ofDig w (dzip (fun a b => a + b) l1 l2) = ofDig w l1 + ofDig w l2
  | [], m => by
    simp [dzip, ofDig]
  | a :: l, [] => by
    simp only [dzip, ofDig, ofDig_add w l []]
    ring
  | a :: l, b :: m => by
    simp only [dzip, ofDig, ofDig_add w l m]
    ring

theorem length_filter_sum (p : Nat → Bool) : ∀ l : List Nat,
    (l.filter p).length = (l.map (fun x => if p x then 1 else 0)).sum
  | [] => rfl
  | a :: t => by
    rw [List.filter_cons]
    by_cases h : p a <;> simp [h, length_filter_sum p t] <;> omega

theorem countEmptySpec_eq_sum (b : Nat) :
    countEmptySpec b = (if nib b 0 = 0 then 1 else 0) + (if nib b 1 = 0 then 1 else 0) + (if nib b 2 = 0 then 1 else 0) + (if nib b 3 = 0 then 1 else 0) + (if nib b 4 = 0 then 1 else 0) + (if nib b 5 = 0 then 1 else 0) + (if nib b 6 = 0 then 1 else 0) + (if nib b 7 = 0 then 1 else 0) + (if nib b 8 = 0 then 1 else 0) + (if nib b 9 = 0 then 1 else 0) + (if nib b 10 = 0 then 1 else 0) + (if nib b 11 = 0 then 1 else 0) + (if nib b 12 = 0 then 1 else 0) + (if nib b 13 = 0 then 1 else 0) + (if nib b 14 = 0 then 1 else 0) + (if nib b 15 = 0 then 1 else 0) := by
  unfold countEmptySpec
  rw [length_filter_sum]
  norm_num [List.range_succ]
  ring

theorem and1_mod (x : Nat) : x &&& 1 = x % 2 := by
  simp [Nat.and_one_is_mod]

theorem and3_mod (x : Nat) : x &&& 3 = x % 4 := by
  have h := Nat.and_pow_two_sub_one_eq_mod x 2
  norm_num at h
  exact h

theorem nib_mask3333 (i : Nat) (hi : i < 16) : nib 0x3333333333333333 i = 3 := by
  interval_cases i <;> rfl

theorem nib_mask1111 (i : Nat) (hi : i < 16) : nib 0x1111111111111111 i = 1 := by
  interval_cases i <;> rfl

theorem nib_maskFFFF (i : Nat) (hi : i < 16) : nib 0xFFFFFFFFFFFFFFFF i = 15 := by
  interval_cases i <;> rfl

theorem shr2_nib (x i : Nat) : nib (x >>> 2) i &&& 3 = (nib x i >>> 2) &&& 3 := by
  rw [and3_mod, and3_mod, Nat.shiftRight_eq_div_pow, Nat.shiftRight_eq_div_pow]
  unfold nib
  norm_num
  have e : x / 4 / 16 ^ i = x / 16 ^ i / 4 := by
    rw [Nat.div_div_eq_div_mul, Nat.div_div_eq_div_mul, Nat.mul_comm]
  rw [e]
  generalize x / 16 ^ i = y
  omega

theorem shr1_nib (x i : Nat) : nib (x >>> 1) i &&& 1 = (nib x i >>> 1) &&& 1 := by
  rw [and1_mod, and1_mod, Nat.shiftRight_eq_div_pow, Nat.shiftRight_eq_div_pow]
  unfold nib
  norm_num
  have e : x / 2 / 16 ^ i = x / 16 ^ i / 2 := by
    rw [Nat.div_div_eq_div_mul, Nat.div_div_eq_div_mul, Nat.mul_comm]
  rw [e]
  generalize x / 16 ^ i = y
  omega

theorem exists_nonzero_nib (b : Nat) (hb : b < 2 ^ 64) (hnz : b ≠ 0) :
    ∃ i, i < 16 ∧ nib b i ≠ 0 := by
  by_contra hcon
  push_neg at hcon
  apply hnz
  have hall : ∀ i, i < 16 → nib b i = 0 := hcon
  conv_lhs => rw [board_nibs b hb]
  rw [hall 0 (by norm_num), hall 1 (by norm_num), hall 2 (by norm_num), hall 3 (by norm_num),
      hall 4 (by norm_num), hall 5 (by norm_num), hall 6 (by norm_num), hall 7 (by norm_num),
      hall 8 (by norm_num), hall 9 (by norm_num), hall 10 (by norm_num), hall 11 (by norm_num),
      hall 12 (by norm_num), hall 13 (by norm_num), hall 14 (by norm_num), hall 15 (by norm_num)]
  simp [ofDig]

theorem countEmptySpec_lt (b : Nat) (i : Nat) (hi : i < 16) (hnz : nib b i ≠ 0) :
    countEmptySpec b < 16 := by
  rw [countEmptySpec_eq_sum b]
  have h0 : (if nib b 0 = 0 then (1:Nat) else 0) ≤ 1 := by split <;> norm_num
  have h1 : (if nib b 1 = 0 then (1:Nat) else 0) ≤ 1 := by split <;> norm_num
  have h2 : (if nib b 2 = 0 then (1:Nat) else 0) ≤ 1 := by split <;> norm_num
  have h3 : (if nib b 3 = 0 then (1:Nat) else 0) ≤ 1 := by split <;> norm_num
  have h4 : (if nib b 4 = 0 then (1:Nat) else 0) ≤ 1 := by split <;> norm_num
  have h5 : (if nib b 5 = 0 then (1:Nat) else 0) ≤ 1 := by split <;> norm_num
  have h6 : (if nib b 6 = 0 then (1:Nat) else 0) ≤ 1 := by split <;> norm_num
  have h7 : (if nib b 7 = 0 then (1:Nat) else 0) ≤ 1 := by split <;> norm_num
  have h8 : (if nib b 8 = 0 then (1:Nat) else 0) ≤ 1 := by split <;> norm_num
  have h9 : (if nib b 9 = 0 then (1:Nat) else 0) ≤ 1 := by split <;> norm_num
  have h10 : (if nib b 10 = 0 then (1:Nat) else 0) ≤ 1 := by split <;> norm_num
  have h11 : (if nib b 11 = 0 then (1:Nat) else 0) ≤ 1 := by split <;> norm_num
  have h12 : (if nib b 12 = 0 then (1:Nat) else 0) ≤ 1 := by split <;> norm_num
  have h13 : (if nib b 13 = 0 then (1:Nat) else 0) ≤ 1 := by split <;> norm_num
  have h14 : (if nib b 14 = 0 then (1:Nat) else 0) ≤ 1 := by split <;> norm_num
  have h15 : (if nib b 15 = 0 then (1:Nat) else 0) ≤ 1 := by split <;> norm_num
  interval_cases i <;> (simp only [if_neg hnz]; omega)

theorem count_empty_core (b x1 x2 x3 x4 x5 x6 x7 : Nat) (hb : b < 2 ^ 64)
    (hx1 : x1 = b ||| ((b >>> 2) &&& 0x3333333333333333))
    (hx2 : x2 = x1 ||| (x1 >>> 1))
    (hx3 : x3 = (x2 ^^^ 0xFFFFFFFFFFFFFFFF) &&& 0x1111111111111111)
    (hx4 : x4 = (x3 + (x3 >>> 32)) % 2 ^ 64)
    (hx5 : x5 = (x4 + (x4 >>> 16)) % 2 ^ 64)
    (hx6 : x6 = (x5 + (x5 >>> 8)) % 2 ^ 64)
    (hx7 : x7 = (x6 + (x6 >>> 4)) % 2 ^ 64) :
    x7 &&& 0xf = countEmptySpec b % 16 := by
  have hnib : ∀ i, i < 16 → nib x3 i = if nib b i = 0 then 1 else 0 := by
    intro i hi
    have hx1n : nib x1 i = nib b i ||| ((nib b i >>> 2) &&& 3) := by
      rw [hx1, nib_or, nib_and, nib_mask3333 i hi, shr2_nib]
    have h2 : nib x2 i &&& 1 = (nib x1 i &&& 1) ||| ((nib x1 i >>> 1) &&& 1) := by
      rw [hx2, nib_or, or_mask_and, shr1_nib]
    have key : ∀ n, n < 16 →
        ((((n ||| ((n >>> 2) &&& 3)) &&& 1) |||
          (((n ||| ((n >>> 2) &&& 3)) >>> 1) &&& 1)) ^^^ 1) = if n = 0 then 1 else 0 := by decide
    calc nib x3 i = (nib x2 i ^^^ 15) &&& 1 := by
          rw [hx3, nib_and, nib_xor, nib_maskFFFF i hi, nib_mask1111 i hi]
      _ = (nib x2 i &&& 1) ^^^ (15 &&& 1) := xor_mask_and _ _ _
      _ = ((nib x1 i &&& 1) ||| ((nib x1 i >>> 1) &&& 1)) ^^^ 1 := by
          rw [h2, show (15 &&& 1 : Nat) = 1 from rfl]
      _ = if nib b i = 0 then 1 else 0 := by
          rw [hx1n]
          exact key _ (nib_lt b i)
  have hb3 : x3 < 2 ^ 64 := by
    rw [hx3]
    exact lt_of_le_of_lt Nat.and_le_right (by norm_num)
  have hpoly : x3 = ofDig 4 [(if nib b 0 = 0 then 1 else 0), (if nib b 1 = 0 then 1 else 0), (if nib b 2 = 0 then 1 else 0), (if nib b 3 = 0 then 1 else 0), (if nib b 4 = 0 then 1 else 0), (if nib b 5 = 0 then 1 else 0), (if nib b 6 = 0 then 1 else 0), (if nib b 7 = 0 then 1 else 0), (if nib b 8 = 0 then 1 else 0), (if nib b 9 = 0 then 1 else 0), (if nib b 10 = 0 then 1 else 0), (if nib b 11 = 0 then 1 else 0), (if nib b 12 = 0 then 1 else 0), (if nib b 13 = 0 then 1 else 0), (if nib b 14 = 0 then 1 else 0), (if nib b 15 = 0 then 1 else 0)] := by
    conv_lhs => rw [board_nibs x3 hb3]
    rw [hnib 0 (by norm_num), hnib 1 (by norm_num), hnib 2 (by norm_num), hnib 3 (by norm_num),
        hnib 4 (by norm_num), hnib 5 (by norm_num), hnib 6 (by norm_num), hnib 7 (by norm_num),
        hnib 8 (by norm_num), hnib 9 (by norm_num), hnib 10 (by norm_num), hnib 11 (by norm_num),
        hnib 12 (by norm_num), hnib 13 (by norm_num), hnib 14 (by norm_num),
        hnib 15 (by norm_num)]
  rw [and15_mod, countEmptySpec_eq_sum b]
  obtain ⟨v0, hv0, hbv0⟩ :
      ∃ v, (if nib b 0 = 0 then (1:Nat) else 0) = v ∧ v ≤ 1 :=
    ⟨_, rfl, by split <;> norm_num⟩
  rw [hv0] at hpoly ⊢
  obtain ⟨v1, hv1, hbv1⟩ :
      ∃ v, (if nib b 1 = 0 then (1:Nat) else 0) = v ∧ v ≤ 1 :=
    ⟨_, rfl, by split <;> norm_num⟩
  rw [hv1] at hpoly ⊢
  obtain ⟨v2, hv2, hbv2⟩ :
      ∃ v, (if nib b 2 = 0 then (1:Nat) else 0) = v ∧ v ≤ 1 :=
    ⟨_, rfl, by split <;> norm_num⟩
  rw [hv2] at hpoly ⊢
  obtain ⟨v3, hv3, hbv3⟩ :
      ∃ v, (if nib b 3 = 0 then (1:Nat) else 0) = v ∧ v ≤ 1 :=
    ⟨_, rfl, by split <;> norm_num⟩
  rw [hv3] at hpoly ⊢
  obtain ⟨v4, hv4, hbv4⟩ :
      ∃ v, (if nib b 4 = 0 then (1:Nat) else 0) = v ∧ v ≤ 1 :=
    ⟨_, rfl, by split <;> norm_num⟩
  rw [hv4] at hpoly ⊢
  obtain ⟨v5, hv5, hbv5⟩ :
      ∃ v, (if nib b 5 = 0 then (1:Nat) else 0) = v ∧ v ≤ 1 :=
    ⟨_, rfl, by split <;> norm_num⟩
  rw [hv5] at hpoly ⊢
  obtain ⟨v6, hv6, hbv6⟩ :
      ∃ v, (if nib b 6 = 0 then (1:Nat) else 0) = v ∧ v ≤ 1 :=
    ⟨_, rfl, by split <;> norm_num⟩
  rw [hv6] at hpoly ⊢
  obtain ⟨v7, hv7, hbv7⟩ :
      ∃ v, (if nib b 7 = 0 then (1:Nat) else 0) = v ∧ v ≤ 1 :=
    ⟨_, rfl, by split <;> norm_num⟩
  rw [hv7] at hpoly ⊢
  obtain ⟨v8, hv8, hbv8⟩ :
      ∃ v, (if nib b 8 = 0 then (1:Nat) else 0) = v ∧ v ≤ 1 :=
    ⟨_, rfl, by split <;> norm_num⟩
  rw [hv8] at hpoly ⊢
  obtain ⟨v9, hv9, hbv9⟩ :
      ∃ v, (if nib b 9 = 0 then (1:Nat) else 0) = v ∧ v ≤ 1 :=
    ⟨_, rfl, by split <;> norm_num⟩
  rw [hv9] at hpoly ⊢
  obtain ⟨v10, hv10, hbv10⟩ :
      ∃ v, (if nib b 10 = 0 then (1:Nat) else 0) = v ∧ v ≤ 1 :=
    ⟨_, rfl, by split <;> norm_num⟩
  rw [hv10] at hpoly ⊢
  obtain ⟨v11, hv11, hbv11⟩ :
      ∃ v, (if nib b 11 = 0 then (1:Nat) else 0) = v ∧ v ≤ 1 :=
    ⟨_, rfl, by split <;> norm_num⟩
  rw [hv11] at hpoly ⊢
  obtain ⟨v12, hv12, hbv12⟩ :
      ∃ v, (if nib b 12 = 0 then (1:Nat) else 0) = v ∧ v ≤ 1 :=
    ⟨_, rfl, by split <;> norm_num⟩
  rw [hv12] at hpoly ⊢
  obtain ⟨v13, hv13, hbv13⟩ :
      ∃ v, (if nib b 13 = 0 then (1:Nat) else 0) = v ∧ v ≤ 1 :=
    ⟨_, rfl, by split <;> norm_num⟩
  rw [hv13] at hpoly ⊢
  obtain ⟨v14, hv14, hbv14⟩ :
      ∃ v, (if nib b 14 = 0 then (1:Nat) else 0) = v ∧ v ≤ 1 :=
    ⟨_, rfl, by split <;> norm_num⟩
  rw [hv14] at hpoly ⊢
  obtain ⟨v15, hv15, hbv15⟩ :
      ∃ v, (if nib b 15 = 0 then (1:Nat) else 0) = v ∧ v ≤ 1 :=
    ⟨_, rfl, by split <;> norm_num⟩
  rw [hv15] at hpoly ⊢
  have hdV : ∀ x ∈ [v0, v1, v2, v3, v4, v5, v6, v7, v8, v9, v10, v11, v12, v13, v14, v15], x < 2 ^ 4 := by
    intro x hx
    simp only [List.mem_cons, List.not_mem_nil, or_false] at hx
    rcases hx with h|h|h|h|h|h|h|h|h|h|h|h|h|h|h|h <;> subst h <;> omega
  have s1 : x3 >>> 32 = ofDig 4 [v8, v9, v10, v11, v12, v13, v14, v15] := by
    rw [hpoly]
    have h := ofDig_shiftRight 4 8 [v0, v1, v2, v3, v4, v5, v6, v7, v8, v9, v10, v11, v12, v13, v14, v15] hdV
    norm_num at h
    simpa using h
  have a1 : x3 + x3 >>> 32 = ofDig 4 [v0 + v8, v1 + v9, v2 + v10, v3 + v11, v4 + v12, v5 + v13, v6 + v14, v7 + v15, v8, v9, v10, v11, v12, v13, v14, v15] := by
    rw [s1, hpoly, ← ofDig_add]
    congr 1
  have hdL4 : ∀ x ∈ [v0 + v8, v1 + v9, v2 + v10, v3 + v11, v4 + v12, v5 + v13, v6 + v14, v7 + v15, v8, v9, v10, v11, v12, v13, v14, v15], x < 2 ^ 4 := by
    intro x hx
    simp only [List.mem_cons, List.not_mem_nil, or_false] at hx
    rcases hx with h|h|h|h|h|h|h|h|h|h|h|h|h|h|h|h <;> subst h <;> omega
  have hb4v : ofDig 4 [v0 + v8, v1 + v9, v2 + v10, v3 + v11, v4 + v12, v5 + v13, v6 + v14, v7 + v15, v8, v9, v10, v11, v12, v13, v14, v15] < 2 ^ 64 := by
    have h := ofDig_lt 4 [v0 + v8, v1 + v9, v2 + v10, v3 + v11, v4 + v12, v5 + v13, v6 + v14, v7 + v15, v8, v9, v10, v11, v12, v13, v14, v15] hdL4
    norm_num at h
    simpa using h
  have hx4v : x4 = ofDig 4 [v0 + v8, v1 + v9, v2 + v10, v3 + v11, v4 + v12, v5 + v13, v6 + v14, v7 + v15, v8, v9, v10, v11, v12, v13, v14, v15] := by
    rw [hx4, a1, Nat.mod_eq_of_lt hb4v]
  have s2 : x4 >>> 16 = ofDig 4 [v4 + v12, v5 + v13, v6 + v14, v7 + v15, v8, v9, v10, v11, v12, v13, v14, v15] := by
    rw [hx4v]
    have h := ofDig_shiftRight 4 4 [v0 + v8, v1 + v9, v2 + v10, v3 + v11, v4 + v12, v5 + v13, v6 + v14, v7 + v15, v8, v9, v10, v11, v12, v13, v14, v15] hdL4
    norm_num at h
    simpa using h
  have a2 : x4 + x4 >>> 16 = ofDig 4 [v0 + v8 + (v4 + v12), v1 + v9 + (v5 + v13), v2 + v10 + (v6 + v14), v3 + v11 + (v7 + v15), v4 + v12 + v8, v5 + v13 + v9, v6 + v14 + v10, v7 + v15 + v11, v8 + v12, v9 + v13, v10 + v14, v11 + v15, v12, v13, v14, v15] := by
    rw [s2, hx4v, ← ofDig_add]
    congr 1
  have hdL5 : ∀ x ∈ [v0 + v8 + (v4 + v12), v1 + v9 + (v5 + v13), v2 + v10 + (v6 + v14), v3 + v11 + (v7 + v15), v4 + v12 + v8, v5 + v13 + v9, v6 + v14 + v10, v7 + v15 + v11, v8 + v12, v9 + v13, v10 + v14, v11 + v15, v12, v13, v14, v15], x < 2 ^ 4 := by
    intro x hx
    simp only [List.mem_cons, List.not_mem_nil, or_false] at hx
    rcases hx with h|h|h|h|h|h|h|h|h|h|h|h|h|h|h|h <;> subst h <;> omega
  have hb5v : ofDig 4 [v0 + v8 + (v4 + v12), v1 + v9 + (v5 + v13), v2 + v10 + (v6 + v14), v3 + v11 + (v7 + v15), v4 + v12 + v8, v5 + v13 + v9, v6 + v14 + v10, v7 + v15 + v11, v8 + v12, v9 + v13, v10 + v14, v11 + v15, v12, v13, v14, v15] < 2 ^ 64 := by
    have h := ofDig_lt 4 [v0 + v8 + (v4 + v12), v1 + v9 + (v5 + v13), v2 + v10 + (v6 + v14), v3 + v11 + (v7 + v15), v4 + v12 + v8, v5 + v13 + v9, v6 + v14 + v10, v7 + v15 + v11, v8 + v12, v9 + v13, v10 + v14, v11 + v15, v12, v13, v14, v15] hdL5
    norm_num at h
    simpa using h
  have hx5v : x5 = ofDig 4 [v0 + v8 + (v4 + v12), v1 + v9 + (v5 + v13), v2 + v10 + (v6 + v14), v3 + v11 + (v7 + v15), v4 + v12 + v8, v5 + v13 + v9, v6 + v14 + v10, v7 + v15 + v11, v8 + v12, v9 + v13, v10 + v14, v11 + v15, v12, v13, v14, v15] := by
    rw [hx5, a2, Nat.mod_eq_of_lt hb5v]
  have s3 : x5 >>> 8 = ofDig 4 [v2 + v10 + (v6 + v14), v3 + v11 + (v7 + v15), v4 + v12 + v8, v5 + v13 + v9, v6 + v14 + v10, v7 + v15 + v11, v8 + v12, v9 + v13, v10 + v14, v11 + v15, v12, v13, v14, v15] := by
    rw [hx5v]
    have h := ofDig_shiftRight 4 2 [v0 + v8 + (v4 + v12), v1 + v9 + (v5 + v13), v2 + v10 + (v6 + v14), v3 + v11 + (v7 + v15), v4 + v12 + v8, v5 + v13 + v9, v6 + v14 + v10, v7 + v15 + v11, v8 + v12, v9 + v13, v10 + v14, v11 + v15, v12, v13, v14, v15] hdL5
    norm_num at h
    simpa using h
  have a3 : x5 + x5 >>> 8 = ofDig 4 [v0 + v8 + (v4 + v12) + (v2 + v10 + (v6 + v14)), v1 + v9 + (v5 + v13) + (v3 + v11 + (v7 + v15)), v2 + v10 + (v6 + v14) + (v4 + v12 + v8), v3 + v11 + (v7 + v15) + (v5 + v13 + v9), v4 + v12 + v8 + (v6 + v14 + v10), v5 + v13 + v9 + (v7 + v15 + v11), v6 + v14 + v10 + (v8 + v12), v7 + v15 + v11 + (v9 + v13), v8 + v12 + (v10 + v14), v9 + v13 + (v11 + v15), v10 + v14 + v12, v11 + v15 + v13, v12 + v14, v13 + v15, v14, v15] := by
    rw [s3, hx5v, ← ofDig_add]
    congr 1
  have hdL6 : ∀ x ∈ [v0 + v8 + (v4 + v12) + (v2 + v10 + (v6 + v14)), v1 + v9 + (v5 + v13) + (v3 + v11 + (v7 + v15)), v2 + v10 + (v6 + v14) + (v4 + v12 + v8), v3 + v11 + (v7 + v15) + (v5 + v13 + v9), v4 + v12 + v8 + (v6 + v14 + v10), v5 + v13 + v9 + (v7 + v15 + v11), v6 + v14 + v10 + (v8 + v12), v7 + v15 + v11 + (v9 + v13), v8 + v12 + (v10 + v14), v9 + v13 + (v11 + v15), v10 + v14 + v12, v11 + v15 + v13, v12 + v14, v13 + v15, v14, v15], x < 2 ^ 4 := by
    intro x hx
    simp only [List.mem_cons, List.not_mem_nil, or_false] at hx
    rcases hx with h|h|h|h|h|h|h|h|h|h|h|h|h|h|h|h <;> subst h <;> omega
  have hb6v : ofDig 4 [v0 + v8 + (v4 + v12) + (v2 + v10 + (v6 + v14)), v1 + v9 + (v5 + v13) + (v3 + v11 + (v7 + v15)), v2 + v10 + (v6 + v14) + (v4 + v12 + v8), v3 + v11 + (v7 + v15) + (v5 + v13 + v9), v4 + v12 + v8 + (v6 + v14 + v10), v5 + v13 + v9 + (v7 + v15 + v11), v6 + v14 + v10 + (v8 + v12), v7 + v15 + v11 + (v9 + v13), v8 + v12 + (v10 + v14), v9 + v13 + (v11 + v15), v10 + v14 + v12, v11 + v15 + v13, v12 + v14, v13 + v15, v14, v15] < 2 ^ 64 := by
    have h := ofDig_lt 4 [v0 + v8 + (v4 + v12) + (v2 + v10 + (v6 + v14)), v1 + v9 + (v5 + v13) + (v3 + v11 + (v7 + v15)), v2 + v10 + (v6 + v14) + (v4 + v12 + v8), v3 + v11 + (v7 + v15) + (v5 + v13 + v9), v4 + v12 + v8 + (v6 + v14 + v10), v5 + v13 + v9 + (v7 + v15 + v11), v6 + v14 + v10 + (v8 + v12), v7 + v15 + v11 + (v9 + v13), v8 + v12 + (v10 + v14), v9 + v13 + (v11 + v15), v10 + v14 + v12, v11 + v15 + v13, v12 + v14, v13 + v15, v14, v15] hdL6
    norm_num at h
    simpa using h
  have hx6v : x6 = ofDig 4 [v0 + v8 + (v4 + v12) + (v2 + v10 + (v6 + v14)), v1 + v9 + (v5 + v13) + (v3 + v11 + (v7 + v15)), v2 + v10 + (v6 + v14) + (v4 + v12 + v8), v3 + v11 + (v7 + v15) + (v5 + v13 + v9), v4 + v12 + v8 + (v6 + v14 + v10), v5 + v13 + v9 + (v7 + v15 + v11), v6 + v14 + v10 + (v8 + v12), v7 + v15 + v11 + (v9 + v13), v8 + v12 + (v10 + v14), v9 + v13 + (v11 + v15), v10 + v14 + v12, v11 + v15 + v13, v12 + v14, v13 + v15, v14, v15] := by
    rw [hx6, a3, Nat.mod_eq_of_lt hb6v]
  have s4 : x6 >>> 4 = ofDig 4 [v1 + v9 + (v5 + v13) + (v3 + v11 + (v7 + v15)), v2 + v10 + (v6 + v14) + (v4 + v12 + v8), v3 + v11 + (v7 + v15) + (v5 + v13 + v9), v4 + v12 + v8 + (v6 + v14 + v10), v5 + v13 + v9 + (v7 + v15 + v11), v6 + v14 + v10 + (v8 + v12), v7 + v15 + v11 + (v9 + v13), v8 + v12 + (v10 + v14), v9 + v13 + (v11 + v15), v10 + v14 + v12, v11 + v15 + v13, v12 + v14, v13 + v15, v14, v15] := by
    rw [hx6v]
    have h := ofDig_shiftRight 4 1 [v0 + v8 + (v4 + v12) + (v2 + v10 + (v6 + v14)), v1 + v9 + (v5 + v13) + (v3 + v11 + (v7 + v15)), v2 + v10 + (v6 + v14) + (v4 + v12 + v8), v3 + v11 + (v7 + v15) + (v5 + v13 + v9), v4 + v12 + v8 + (v6 + v14 + v10), v5 + v13 + v9 + (v7 + v15 + v11), v6 + v14 + v10 + (v8 + v12), v7 + v15 + v11 + (v9 + v13), v8 + v12 + (v10 + v14), v9 + v13 + (v11 + v15), v10 + v14 + v12, v11 + v15 + v13, v12 + v14, v13 + v15, v14, v15] hdL6
    norm_num at h
    simpa using h
  rw [hx7, Nat.mod_mod_of_dvd _ (by norm_num : (16:Nat) ∣ 2 ^ 64), s4, hx6v]
  simp only [ofDig]
  omega


theorem count_empty_eq (b : Nat) (hb : b < 2 ^ 64) :
    count_empty b = countEmptySpec b % 16 :=
  count_empty_core b _ _ _ _ _ _ _ hb rfl rfl rfl rfl rfl rfl rfl

theorem count_empty_exact (b : Nat) (hb : b < 2 ^ 64) (hnz : b ≠ 0) :
    count_empty b = countEmptySpec b := by
  rw [count_empty_eq b hb]
  obtain ⟨i, hi, hn⟩ := exists_nonzero_nib b hb hnz
  exact Nat.mod_eq_of_lt (countEmptySpec_lt b i hi hn)

theorem countEmptySpec_pos (b : Nat) (i : Nat) (hi : i < 16) (hz : nib b i = 0) :
    0 < countEmptySpec b := by
  rw [countEmptySpec_eq_sum b]
  interval_cases i <;> (rw [if_pos hz]; omega)


theorem shiftRight_le_self (n k : Nat) : n >>> k ≤ n := by
  rw [Nat.shiftRight_eq_div_pow]
  exact Nat.div_le_self n (2 ^ k)

theorem popcountKF_fuel : ∀ fuel m : Nat, m ≤ fuel → popcountKF fuel m = popcountKF m m
  | 0, m, h => by
    have : m = 0 := by omega
    subst this
    rfl
  | fuel + 1, m, h => by
    rcases Nat.eq_zero_or_pos m with h0 | hpos
    · subst h0
      simp [popcountKF]
    · obtain ⟨g, rfl⟩ : ∃ g, m = g + 1 := ⟨m - 1, by omega⟩
      have hand : (g + 1) &&& (g + 1 - 1) ≤ g := by
        have := Nat.and_le_right (n := g + 1) (m := g + 1 - 1)
        omega
      show popcountKF (fuel + 1) (g + 1) = popcountKF (g + 1) (g + 1)
      rw [popcountKF, popcountKF, if_neg (by omega), if_neg (by omega)]
      rw [popcountKF_fuel fuel _ (by omega), popcountKF_fuel g _ hand]

theorem popcountK_step (n : Nat) (h : 0 < n) :
    popcountK n = popcountK (n &&& (n - 1)) + 1 := by
  unfold popcountK
  obtain ⟨f, rfl⟩ : ∃ f, n = f + 1 := ⟨n - 1, by omega⟩
  rw [popcountKF, if_neg (by omega)]
  congr 1
  have hand : (f + 1) &&& (f + 1 - 1) ≤ f := by
    have := Nat.and_le_right (n := f + 1) (m := f + 1 - 1)
    omega
  rw [popcountKF_fuel f _ hand]

theorem two_pow_and_pred (k : Nat) : 2 ^ k &&& (2 ^ k - 1) = 0 := by
  apply Nat.eq_of_testBit_eq
  intro j
  rw [Nat.testBit_and, Nat.testBit_two_pow, Nat.testBit_two_pow_sub_one, Nat.zero_testBit]
  simp only [Bool.and_eq_false_iff, decide_eq_false_iff_not]
  omega

theorem popcountK_eq_card : ∀ n : Nat, n < 2 ^ 16 →
    popcountK n = ((Finset.range 16).filter (fun j => n.testBit j)).card := by
  intro n
  induction n using Nat.strong_induction_on with
  | _ n ih =>
    intro hn
    rcases Nat.eq_zero_or_pos n with rfl | hpos
    · simp [popcountK, popcountKF, Nat.zero_testBit]
    · obtain ⟨k, m, hm, hnm⟩ := Nat.exists_eq_two_pow_mul_odd (by omega : n ≠ 0)
      obtain ⟨m1, rfl⟩ := hm
      have hp2 : (2:Nat) ^ (k + 1) = 2 * 2 ^ k := by ring
      have e1 : n = 2 ^ k + 2 ^ (k + 1) * m1 := by rw [hnm]; ring
      have h1p : (1:Nat) ≤ 2 ^ k := Nat.one_le_two_pow
      have hx : (2:Nat) ^ k < 2 ^ (k + 1) := by omega
      have e2 : n - 1 = (2 ^ k - 1) + 2 ^ (k + 1) * m1 := by
        rw [e1]
        omega
      have hand : n &&& (n - 1) = 2 ^ (k + 1) * m1 := by
        rw [e2, e1, and_split _ _ _ _ hx (by omega), two_pow_and_pred, Nat.and_self,
          Nat.zero_add]
      have hk16 : k < 16 := by
        by_contra hcon
        have : (2:Nat) ^ 16 ≤ 2 ^ k := Nat.pow_le_pow_right (by norm_num) (by omega)
        omega
      have hnk : n.testBit k = true := by
        rw [e1, testBit_add_shift _ _ _ hx, if_pos (by omega), Nat.testBit_two_pow]
        simp
      have hbits : ∀ j, (2 ^ (k + 1) * m1).testBit j =
          if j = k then false else n.testBit j := by
        intro j
        have hz : (2:Nat) ^ (k + 1) * m1 = 0 + 2 ^ (k + 1) * m1 := by omega
        rw [hz, testBit_add_shift _ _ _ (Nat.two_pow_pos (k + 1)),
          e1, testBit_add_shift _ _ _ hx]
        by_cases hjk : j = k
        · subst hjk
          rw [if_pos rfl, if_pos (by omega), Nat.zero_testBit]
        · by_cases hlt : j < k + 1
          · rw [if_neg hjk, if_pos hlt, if_pos hlt, Nat.zero_testBit, Nat.testBit_two_pow,
              decide_eq_false (show ¬(k = j) by omega)]
          · rw [if_neg hjk, if_neg hlt, if_neg hlt]
      have hlt : n &&& (n - 1) < n := by
        have h1 : n &&& (n - 1) ≤ n - 1 := Nat.and_le_right
        omega
      have hsets : (Finset.range 16).filter (fun j => n.testBit j) =
          insert k ((Finset.range 16).filter (fun j => (2 ^ (k + 1) * m1).testBit j)) := by
        ext j
        simp only [Finset.mem_insert, Finset.mem_filter, Finset.mem_range]
        constructor
        · rintro ⟨hj16, hbj⟩
          by_cases hjk : j = k
          · exact Or.inl hjk
          · exact Or.inr ⟨hj16, by rw [hbits j, if_neg hjk]; exact hbj⟩
        · rintro (rfl | ⟨hj16, hbj⟩)
          · exact ⟨hk16, hnk⟩
          · refine ⟨hj16, ?_⟩
            rw [hbits j] at hbj
            by_cases hjk : j = k
            · rw [if_pos hjk] at hbj
              cases hbj
            · rw [if_neg hjk] at hbj
              exact hbj
      have hnotmem : k ∉ (Finset.range 16).filter (fun j => (2 ^ (k + 1) * m1).testBit j) := by
        simp only [Finset.mem_filter, Finset.mem_range, not_and]
        intro _
        rw [hbits k, if_pos rfl]
        simp
      rw [popcountK_step n hpos, hand, ih _ (by omega) (by omega), hsets,
        Finset.card_insert_of_not_mem hnotmem]

theorem tileBitsetF_lt : ∀ fuel board bitset : Nat, bitset < 2 ^ 16 →
    tileBitsetF fuel board bitset < 2 ^ 16
  | 0, _, bitset, h => h
  | fuel + 1, board, bitset, h => by
    rw [tileBitsetF]
    split
    · exact h
    · apply tileBitsetF_lt
      apply Nat.or_lt_two_pow h
      rw [Nat.shiftLeft_eq, Nat.one_mul]
      have h15 : board &&& 0xf ≤ 15 := by
        have := and15_mod board
        have h2 : board % 16 < 16 := Nat.mod_lt _ (by norm_num)
        omega
      calc (2:Nat) ^ (board &&& 0xf) ≤ 2 ^ 15 := Nat.pow_le_pow_right (by norm_num) h15
        _ < 2 ^ 16 := by norm_num

theorem tileBitsetF_testBit : ∀ fuel board bitset v : Nat, board < 16 ^ fuel → 1 ≤ v →
    ((tileBitsetF fuel board bitset).testBit v = true ↔
      (bitset.testBit v = true ∨ ∃ i, i < fuel ∧ nib board i = v))
  | 0, board, bitset, v, hb, hv => by
    have h0 : board = 0 := by
      have : (16:Nat) ^ 0 = 1 := by norm_num
      omega
    subst h0
    show (tileBitsetF 0 0 bitset).testBit v = true ↔ _
    constructor
    · intro h
      exact Or.inl h
    · rintro (h | ⟨i, hi, _⟩)
      · exact h
      · omega
  | fuel + 1, board, bitset, v, hb, hv => by
    by_cases h0 : board = 0
    · subst h0
      rw [tileBitsetF, if_pos rfl]
      constructor
      · exact Or.inl
      · rintro (h | ⟨i, hi, hnib⟩)
        · exact h
        · exfalso
          have : nib 0 i = 0 := by simp [nib]
          omega
    · rw [tileBitsetF, if_neg h0]
      have hb4 : board >>> 4 < 16 ^ fuel := by
        rw [Nat.shiftRight_eq_div_pow]
        have hps : (16:Nat) ^ (fuel + 1) = 16 ^ fuel * 16 := by ring
        have h24 : (2:Nat) ^ 4 = 16 := by norm_num
        rw [h24]
        rw [Nat.div_lt_iff_lt_mul (by norm_num)]
        omega
      rw [tileBitsetF_testBit fuel (board >>> 4) _ v hb4 hv]
      rw [Nat.testBit_or, Bool.or_eq_true]
      have h1s : (1 <<< (board &&& 0xf)).testBit v = true ↔ board &&& 0xf = v := by
        rw [Nat.shiftLeft_eq, Nat.one_mul, Nat.testBit_two_pow]
        simp
      have hA : board &&& 0xf = nib board 0 := by
        rw [and15_mod]
        simp [nib]
      constructor
      · rintro ((h | h) | ⟨i, hi, h⟩)
        · exact Or.inl h
        · refine Or.inr ⟨0, by omega, ?_⟩
          rw [← hA]
          exact h1s.mp h
        · rw [nib_shr4] at h
          exact Or.inr ⟨i + 1, by omega, h⟩
      · rintro (h | ⟨i, hi, h⟩)
        · exact Or.inl (Or.inl h)
        · rcases i with _ | i2
          · refine Or.inl (Or.inr (h1s.mpr ?_))
            rw [hA]
            exact h
          · refine Or.inr ⟨i2, by omega, ?_⟩
            rw [nib_shr4]
            exact h

theorem tileBitset_testBit (b v : Nat) (hb : b < 2 ^ 64) (hv : 1 ≤ v) :
    ((tileBitset b).testBit v = true ↔ ∃ i, i < 16 ∧ nib b i = v) := by
  have h16 : (16:Nat) ^ 16 = 2 ^ 64 := by norm_num
  have h := tileBitsetF_testBit 16 b 0 v (by omega) hv
  simpa [Nat.zero_testBit] using h

theorem count_distinct_tiles_eq (b : Nat) (hb : b < 2 ^ 64) :
    count_distinct_tiles b = distinctRanksSpec b := by
  unfold count_distinct_tiles distinctRanksSpec
  have hbs : tileBitset b < 2 ^ 16 := tileBitsetF_lt 16 b 0 (by norm_num)
  have hshift : tileBitset b >>> 1 < 2 ^ 16 :=
    lt_of_le_of_lt (shiftRight_le_self _ _) hbs
  rw [popcountK_eq_card _ hshift, Finset.card_filter, Finset.card_filter]
  conv_lhs => rw [Finset.sum_range_succ]
  conv_rhs => rw [Finset.sum_range_succ']
  have h15 : (tileBitset b >>> 1).testBit 15 = false := by
    rw [Nat.testBit_shiftRight]
    exact Nat.testBit_lt_two_pow hbs
  rw [h15, if_neg (Bool.false_ne_true), Nat.add_zero,
    if_neg (by simp : ¬((0:Nat) ≠ 0 ∧ ∃ i ∈ Finset.range 16, nib b i = 0)), Nat.add_zero]
  apply Finset.sum_congr rfl
  intro j hj
  have hiff : ((tileBitset b >>> 1).testBit j = true) ↔
      ((j + 1 ≠ 0) ∧ ∃ i ∈ Finset.range 16, nib b i = j + 1) := by
    rw [Nat.testBit_shiftRight, tileBitset_testBit b (1 + j) hb (by omega)]
    constructor
    · rintro ⟨i, hi, h⟩
      refine ⟨by omega, i, Finset.mem_range.mpr hi, ?_⟩
      omega
    · rintro ⟨_, i, hi, h⟩
      refine ⟨i, Finset.mem_range.mp hi, ?_⟩
      omega
  exact if_congr hiff rfl rfl


theorem mergesLoop_strip : ∀ (l : List Nat) (p c m : Nat),
    mergesLoop l p c m = mergesLoop (stripZeros l) p c m
  | [], p, c, m => rfl
  | b :: t, p, c, m => by
    by_cases hb : b = 0
    · subst hb
      have hs : stripZeros (0 :: t) = stripZeros t := by simp [stripZeros]
      rw [hs]
      show mergesLoop (0 :: t) p c m = _
      simp only [mergesLoop, if_pos rfl]
      exact mergesLoop_strip t p c m
    · have hs : stripZeros (b :: t) = b :: stripZeros t := by simp [stripZeros, hb]
      rw [hs]
      simp only [mergesLoop, if_neg hb]
      by_cases h1 : p = b
      · rw [if_pos h1, if_pos h1]
        exact mergesLoop_strip t p (c + 1) m
      · rw [if_neg h1, if_neg h1]
        by_cases h2 : c > 0
        · rw [if_pos h2, if_pos h2]
          exact mergesLoop_strip t b 0 (m + (1 + c))
        · rw [if_neg h2, if_neg h2]
          exact mergesLoop_strip t b c m

theorem mergesLoop_run : ∀ (l : List Nat) (a c m : Nat), (∀ x ∈ l, x ≠ 0) →
    mergesLoop l a c m = m + ((runLengthsAux l a (c + 1)).filter (fun L => 2 ≤ L)).sum
  | [], a, c, m => by
    intro _
    rcases c with _ | c2 <;> simp [mergesLoop, runLengthsAux, List.filter] <;> omega
  | b :: t, a, c, m => by
    intro hnz
    have hb : b ≠ 0 := hnz b (List.mem_cons_self b t)
    have hnzt : ∀ x ∈ t, x ≠ 0 := fun x hx => hnz x (List.mem_cons_of_mem b hx)
    simp only [mergesLoop, if_neg hb]
    by_cases h1 : a = b
    · rw [if_pos h1, mergesLoop_run t a (c + 1) m hnzt,
        show runLengthsAux (b :: t) a (c + 1) = runLengthsAux t a (c + 1 + 1) from by
          rw [runLengthsAux, if_pos h1.symm]]
    · rw [if_neg h1,
        show runLengthsAux (b :: t) a (c + 1) = (c + 1) :: runLengthsAux t b 1 from by
          rw [runLengthsAux, if_neg (fun h => h1 h.symm)]]
      have hfil : (((c + 1) :: runLengthsAux t b 1).filter (fun L => 2 ≤ L)).sum =
          (if 2 ≤ c + 1 then c + 1 else 0) +
            ((runLengthsAux t b 1).filter (fun L => 2 ≤ L)).sum := by
        rw [List.filter_cons]
        by_cases hc2 : 2 ≤ c + 1
        · simp [hc2]
        · simp [hc2]
      by_cases h2 : c > 0
      · rw [if_pos h2, mergesLoop_run t b 0 (m + (1 + c)) hnzt, hfil, if_pos (by omega)]
        norm_num
        omega
      · rw [if_neg h2, mergesLoop_run t b c m hnzt, hfil, if_neg (by omega)]
        have hc0 : c = 0 := by omega
        subst hc0
        norm_num

theorem line_merges_eq_spec (row : Nat) : line_merges row = specMergeScore row := by
  unfold line_merges specMergeScore
  rw [mergesLoop_strip]
  cases hs : stripZeros (toLine row) with
  | nil => simp [mergesLoop, runLengths]
  | cons b t =>
    have hmem : ∀ x ∈ stripZeros (toLine row), x ≠ 0 := fun x hx => (strip_mem _ x hx).2
    rw [hs] at hmem
    have hb : b ≠ 0 := hmem b (List.mem_cons_self b t)
    have hnzt : ∀ x ∈ t, x ≠ 0 := fun x hx => hmem x (List.mem_cons_of_mem b hx)
    show mergesLoop (b :: t) 0 0 0 = ((runLengths (b :: t)).filter (fun L => 2 ≤ L)).sum
    simp only [mergesLoop, if_neg hb, if_neg (show ¬((0:Nat) = b) from fun h => hb h.symm),
      if_neg (show ¬((0:Nat) > 0) from by omega)]
    rw [mergesLoop_run t b 0 0 hnzt,
      show runLengths (b :: t) = runLengthsAux t b 1 from rfl]
    norm_num


theorem nib_getRow (c k j : Nat) (hk : k < 4) (hj : j < 4) :
    nib (getRow c k) j = nib c (4 * k + j) := by
  rw [getRow_eq]
  interval_cases k <;> interval_cases j <;> ((simp only [nib]; norm_num) <;> omega)

theorem row_changed_zero (r : Nat) (hr : r < 2 ^ 16) (hne : row_move_result r ≠ r) :
    ∃ j, j < 4 ∧ nib (row_move_result r) j = 0 := by
  rw [row_move_result_eq_ref] at hne ⊢
  have h0 := refMoveLeft_zero_mem r hr hne
  rw [toLine_eq_nibs] at h0
  simp only [List.mem_cons, List.not_mem_nil, or_false] at h0
  rcases h0 with h | h | h | h
  · exact ⟨0, by omega, h.symm⟩
  · exact ⟨1, by omega, h.symm⟩
  · exact ⟨2, by omega, h.symm⟩
  · exact ⟨3, by omega, h.symm⟩

theorem reverse_row_zero : reverse_row 0 = 0 := by decide

theorem transpose_zero : transpose 0 = 0 := by decide

theorem revMoveRow_changed_zero (s : Nat) (hs : s < 2 ^ 16) (hne : revMoveRow s ≠ s) :
    ∃ j, j < 4 ∧ nib (revMoveRow s) j = 0 := by
  have hFne : row_move_result (reverse_row s) ≠ reverse_row s := by
    intro h
    apply hne
    unfold revMoveRow
    rw [h, reverse_reverse s hs]
  obtain ⟨j, hj, hz⟩ := row_changed_zero (reverse_row s) (reverse_row_lt s) hFne
  refine ⟨3 - j, by omega, ?_⟩
  unfold revMoveRow
  rw [reverse_row_nib _ (row_move_result_lt _) (3 - j) (by omega)]
  rw [show 3 - (3 - j) = j from by omega]
  exact hz

theorem execute_move_2_changed_empty (b : Nat) (hb : b < 2 ^ 64)
    (hne : execute_move_2 b ≠ b) :
    ∃ i, i < 16 ∧ nib (execute_move_2 b) i = 0 := by
  rw [execute_move_2_eq_rowMap b hb] at hne ⊢
  have hrow : ∃ k, k < 4 ∧ row_move_result (getRow b k) ≠ getRow b k := by
    by_contra hcon
    push_neg at hcon
    apply hne
    show ofDig 16 [row_move_result (getRow b 0), row_move_result (getRow b 1),
      row_move_result (getRow b 2), row_move_result (getRow b 3)] = b
    rw [hcon 0 (by norm_num), hcon 1 (by norm_num), hcon 2 (by norm_num),
      hcon 3 (by norm_num)]
    exact (board_rows b hb).symm
  obtain ⟨k, hk, hkne⟩ := hrow
  obtain ⟨j, hj, hz⟩ := row_changed_zero (getRow b k) (getRow_lt b k) hkne
  refine ⟨4 * k + j, by omega, ?_⟩
  rw [← nib_getRow _ k j hk hj, getRow_rowMap _ row_move_result_lt b k hk]
  exact hz

theorem execute_move_3_changed_empty (b : Nat) (hb : b < 2 ^ 64)
    (hne : execute_move_3 b ≠ b) :
    ∃ i, i < 16 ∧ nib (execute_move_3 b) i = 0 := by
  rw [execute_move_3_eq_rowMap b hb] at hne ⊢
  have hrow : ∃ k, k < 4 ∧ revMoveRow (getRow b k) ≠ getRow b k := by
    by_contra hcon
    push_neg at hcon
    apply hne
    show ofDig 16 [revMoveRow (getRow b 0), revMoveRow (getRow b 1),
      revMoveRow (getRow b 2), revMoveRow (getRow b 3)] = b
    rw [hcon 0 (by norm_num), hcon 1 (by norm_num), hcon 2 (by norm_num),
      hcon 3 (by norm_num)]
    exact (board_rows b hb).symm
  obtain ⟨k, hk, hkne⟩ := hrow
  obtain ⟨j, hj, hz⟩ := revMoveRow_changed_zero (getRow b k) (getRow_lt b k) hkne
  refine ⟨4 * k + j, by omega, ?_⟩
  rw [← nib_getRow _ k j hk hj, getRow_rowMap _ revMoveRow_lt b k hk]
  exact hz

theorem execute_move_0_changed_empty (b : Nat) (hb : b < 2 ^ 64)
    (hne : execute_move_0 b ≠ b) :
    ∃ i, i < 16 ∧ nib (execute_move_0 b) i = 0 := by
  rw [execute_move_0_eq_transpose b hb] at hne ⊢
  have hinner : execute_move_2 (transpose b) ≠ transpose b := by
    intro h
    apply hne
    rw [h, transpose_transpose b hb]
  obtain ⟨i, hi, hz⟩ := execute_move_2_changed_empty (transpose b) (transpose_lt b) hinner
  refine ⟨4 * (i % 4) + i / 4, by omega, ?_⟩
  rw [transpose_nib _ _ (by omega)]
  rw [show 4 * ((4 * (i % 4) + i / 4) % 4) + (4 * (i % 4) + i / 4) / 4 = i from by omega]
  exact hz

theorem execute_move_1_changed_empty (b : Nat) (hb : b < 2 ^ 64)
    (hne : execute_move_1 b ≠ b) :
    ∃ i, i < 16 ∧ nib (execute_move_1 b) i = 0 := by
  rw [execute_move_1_eq_transpose b hb] at hne ⊢
  have hinner : execute_move_3 (transpose b) ≠ transpose b := by
    intro h
    apply hne
    rw [h, transpose_transpose b hb]
  obtain ⟨i, hi, hz⟩ := execute_move_3_changed_empty (transpose b) (transpose_lt b) hinner
  refine ⟨4 * (i % 4) + i / 4, by omega, ?_⟩
  rw [transpose_nib _ _ (by omega)]
  rw [show 4 * ((4 * (i % 4) + i / 4) % 4) + (4 * (i % 4) + i / 4) / 4 = i from by omega]
  exact hz

theorem row_move_result_zero (r : Nat) (hr : r < 2 ^ 16) (h : row_move_result r = 0) :
    r = 0 := by
  rw [row_move_result_eq_ref] at h
  exact refMoveLeft_ne_zero r hr h

theorem revMoveRow_zero (s : Nat) (hs : s < 2 ^ 16) (h : revMoveRow s = 0) : s = 0 := by
  unfold revMoveRow at h
  have h2 := congrArg reverse_row h
  rw [reverse_reverse _ (row_move_result_lt _), reverse_row_zero] at h2
  have h3 := row_move_result_zero _ (reverse_row_lt s) h2
  have h4 := congrArg reverse_row h3
  rw [reverse_reverse s hs, reverse_row_zero] at h4
  exact h4

theorem execute_move_2_zero (b : Nat) (hb : b < 2 ^ 64) (h : execute_move_2 b = 0) :
    b = 0 := by
  rw [execute_move_2_eq_rowMap b hb] at h
  simp only [rowMap, ofDig] at h
  have h0 : ∀ k, k < 4 → row_move_result (getRow b k) = 0 := by
    intro k hk
    interval_cases k <;> omega
  have hq : ∀ k, k < 4 → getRow b k = 0 := fun k hk =>
    row_move_result_zero _ (getRow_lt b k) (h0 k hk)
  conv_lhs => rw [board_rows b hb]
  rw [hq 0 (by norm_num), hq 1 (by norm_num), hq 2 (by norm_num), hq 3 (by norm_num)]
  simp [ofDig]

theorem execute_move_3_zero (b : Nat) (hb : b < 2 ^ 64) (h : execute_move_3 b = 0) :
    b = 0 := by
  rw [execute_move_3_eq_rowMap b hb] at h
  simp only [rowMap, ofDig] at h
  have h0 : ∀ k, k < 4 → revMoveRow (getRow b k) = 0 := by
    intro k hk
    interval_cases k <;> omega
  have hq : ∀ k, k < 4 → getRow b k = 0 := fun k hk =>
    revMoveRow_zero _ (getRow_lt b k) (h0 k hk)
  conv_lhs => rw [board_rows b hb]
  rw [hq 0 (by norm_num), hq 1 (by norm_num), hq 2 (by norm_num), hq 3 (by norm_num)]
  simp [ofDig]

theorem execute_move_0_zero (b : Nat) (hb : b < 2 ^ 64) (h : execute_move_0 b = 0) :
    b = 0 := by
  rw [execute_move_0_eq_transpose b hb] at h
  have h2 := congrArg transpose h
  rw [transpose_transpose _ (execute_move_2_lt _ (transpose_lt b)), transpose_zero] at h2
  have h3 := execute_move_2_zero _ (transpose_lt b) h2
  have h4 := congrArg transpose h3
  rw [transpose_transpose b hb, transpose_zero] at h4
  exact h4

theorem execute_move_1_zero (b : Nat) (hb : b < 2 ^ 64) (h : execute_move_1 b = 0) :
    b = 0 := by
  rw [execute_move_1_eq_transpose b hb] at h
  have h2 := congrArg transpose h
  rw [transpose_transpose _ (execute_move_3_lt _ (transpose_lt b)), transpose_zero] at h2
  have h3 := execute_move_3_zero _ (transpose_lt b) h2
  have h4 := congrArg transpose h3
  rw [transpose_transpose b hb, transpose_zero] at h4
  exact h4

theorem execute_move_0_lt (b : Nat) (h : b < 2 ^ 64) : execute_move_0 b < 2 ^ 64 := by
  rw [execute_move_0_eq_transpose b h]
  exact transpose_lt _

theorem execute_move_1_lt (b : Nat) (h : b < 2 ^ 64) : execute_move_1 b < 2 ^ 64 := by
  rw [execute_move_1_eq_transpose b h]
  exact transpose_lt _

theorem changed_move_has_empty (b : Nat) (hb : b < 2 ^ 64) (d : Int)
    (hd : d = 0 ∨ d = 1 ∨ d = 2 ∨ d = 3) (hne : do_execute_move d b ≠ b) :
    0 < countEmptySpec (do_execute_move d b) ∧
      count_empty (do_execute_move d b) = countEmptySpec (do_execute_move d b) := by
  rcases hd with rfl | rfl | rfl | rfl
  · have hne0 : execute_move_0 b ≠ b := hne
    have he : do_execute_move 0 b = execute_move_0 b := rfl
    rw [he] at hne ⊢
    obtain ⟨i, hi, hz⟩ := execute_move_0_changed_empty b hb hne0
    refine ⟨countEmptySpec_pos _ i hi hz, ?_⟩
    refine count_empty_exact _ (execute_move_0_lt b hb) ?_
    intro h0
    exact hne0 (h0.trans (execute_move_0_zero b hb h0).symm)
  · have hne0 : execute_move_1 b ≠ b := hne
    have he : do_execute_move 1 b = execute_move_1 b := rfl
    rw [he] at hne ⊢
    obtain ⟨i, hi, hz⟩ := execute_move_1_changed_empty b hb hne0
    refine ⟨countEmptySpec_pos _ i hi hz, ?_⟩
    refine count_empty_exact _ (execute_move_1_lt b hb) ?_
    intro h0
    exact hne0 (h0.trans (execute_move_1_zero b hb h0).symm)
  · have hne0 : execute_move_2 b ≠ b := hne
    have he : do_execute_move 2 b = execute_move_2 b := rfl
    rw [he] at hne ⊢
    obtain ⟨i, hi, hz⟩ := execute_move_2_changed_empty b hb hne0
    refine ⟨countEmptySpec_pos _ i hi hz, ?_⟩
    refine count_empty_exact _ (execute_move_2_lt b hb) ?_
    intro h0
    exact hne0 (h0.trans (execute_move_2_zero b hb h0).symm)
  · have hne0 : execute_move_3 b ≠ b := hne
    have he : do_execute_move 3 b = execute_move_3 b := rfl
    rw [he] at hne ⊢
    obtain ⟨i, hi, hz⟩ := execute_move_3_changed_empty b hb hne0
    refine ⟨countEmptySpec_pos _ i hi hz, ?_⟩
    refine count_empty_exact _ (execute_move_3_lt b hb) ?_
    intro h0
    exact hne0 (h0.trans (execute_move_3_zero b hb h0).symm)


theorem score_zero_of_unchanged (f : Nat → ℚ) (b : Nat) (d : Int)
    (h : do_execute_move d b = b) : internal_score_toplevel_move f b d = 0 := by
  unfold internal_score_toplevel_move
  rw [if_pos h]

theorem find_best_none (f : Nat → ℚ) (b : Nat)
    (h : ∀ d : Int, d = 0 ∨ d = 1 ∨ d = 2 ∨ d = 3 → do_execute_move d b = b) :
    ai_find_best_move f b = -1 := by
  unfold ai_find_best_move
  have s0 : internal_score_toplevel_move f b 0 = 0 :=
    score_zero_of_unchanged f b 0 (h 0 (Or.inl rfl))
  have s1 : internal_score_toplevel_move f b 1 = 0 :=
    score_zero_of_unchanged f b 1 (h 1 (Or.inr (Or.inl rfl)))
  have s2 : internal_score_toplevel_move f b 2 = 0 :=
    score_zero_of_unchanged f b 2 (h 2 (Or.inr (Or.inr (Or.inl rfl))))
  have s3 : internal_score_toplevel_move f b 3 = 0 :=
    score_zero_of_unchanged f b 3 (h 3 (Or.inr (Or.inr (Or.inr rfl))))
  simp only [findBestLoop, s0, s1, s2, s3]
  norm_num


/-! ## Claim theorems -/

/-- C1: Corrected. At the merge cap the rank increment is suppressed (two
adjacent rank-15 tiles do not become rank 16), but the source cell is
still cleared unconditionally: the merge pass maps a leading pair of 15s
to a single 15 followed by the rest of the merged line. The original
claim that the resulting row still contains both rank-15 tiles is false
(see the counterexample). -/
theorem claim_C1 (t : List Nat) :
    mergeLine (15 :: 15 :: t) = 15 :: mergeLine t ∧
    toLine (row_move_result 0x00FF) = [15, 0, 0, 0] := by
  constructor
  · rw [mergeLine, if_pos rfl, if_neg (by norm_num)]
  · decide

/-- C1 counterexample: on row 0x00FF (two adjacent rank-15 tiles) the
table result is 0x000F: exactly one rank-15 tile remains, so the claim
that neither cell of the pair is cleared is refuted. -/
theorem claim_C1_cex :
    row_move_result 0x00FF = 0x000F ∧
      ((toLine (row_move_result 0x00FF)).filter (fun x => x = 15)).length = 1 := by
  decide

/-- C2: Corrected. Each maximal run of L ≥ 2 equal nonzero adjacent ranks
contributes L (not L + 1) to the merges counter of the heuristic-table
construction: line_merges equals the sum of the lengths of the runs of
length at least 2 of the zero-stripped line. -/
theorem claim_C2 (row : Nat) : line_merges row = specMergeScore row :=
  line_merges_eq_spec row

/-- C2 counterexample: row 0x0022 has a single maximal run of exactly 2
equal nonzero tiles; its merge counter is 2, not 3 as claimed. -/
theorem claim_C2_cex :
    line_merges 0x0022 = 2 ∧ runLengths (stripZeros (toLine 0x0022)) = [2] := by
  decide

/-- C4: Corrected. execute_move is deterministic (a pure function of the
board) but NOT idempotent: a second application can change the board
again (see the counterexample). The correct algebraic law is
stabilization after three applications: for every board and direction,
four applications equal three. -/
theorem claim_C4 (b : Nat) (hb : b < 2 ^ 64) (d : Int)
    (hd : d = 0 ∨ d = 1 ∨ d = 2 ∨ d = 3) :
    do_execute_move d (do_execute_move d (do_execute_move d (do_execute_move d b))) =
      do_execute_move d (do_execute_move d (do_execute_move d b)) := by
  rcases hd with rfl | rfl | rfl | rfl
  · show execute_move_0 (execute_move_0 (execute_move_0 (execute_move_0 b))) =
      execute_move_0 (execute_move_0 (execute_move_0 b))
    exact execute_move_0_stab b hb
  · show execute_move_1 (execute_move_1 (execute_move_1 (execute_move_1 b))) =
      execute_move_1 (execute_move_1 (execute_move_1 b))
    exact execute_move_1_stab b hb
  · show execute_move_2 (execute_move_2 (execute_move_2 (execute_move_2 b))) =
      execute_move_2 (execute_move_2 (execute_move_2 b))
    exact execute_move_2_stab b hb
  · show execute_move_3 (execute_move_3 (execute_move_3 (execute_move_3 b))) =
      execute_move_3 (execute_move_3 (execute_move_3 b))
    exact execute_move_3_stab b hb

theorem claim_C4_witness : (0x2222 : Nat) < 2 ^ 64 ∧
    do_execute_move 2 (do_execute_move 2 (do_execute_move 2 (do_execute_move 2 0x2222))) =
      do_execute_move 2 (do_execute_move 2 (do_execute_move 2 0x2222)) :=
  ⟨by norm_num, claim_C4 0x2222 (by norm_num) 2 (Or.inr (Or.inr (Or.inl rfl)))⟩

/-- C4 counterexample: on board 0x2222 (one row of four rank-2 tiles) the
left move gives 0x0033 and a second left move gives 0x0004: execute_move
is not idempotent. -/
theorem claim_C4_cex :
    do_execute_move 2 (do_execute_move 2 0x2222) ≠ do_execute_move 2 0x2222 := by
  decide

/-- C5: Confirmed. The left-move row result equals the brute-force
slide-left-and-merge reference on every row pattern (hence on all 65536
16-bit rows), and the other three directions satisfy the documented
symmetries: right is the mirror conjugate of left, up and down are the
transpose conjugates of left and right. -/
theorem claim_C5 :
    (∀ r : Nat, row_move_result r = refMoveLeft r) ∧
    (∀ b : Nat, b < 2 ^ 64 →
      execute_move_3 b = mirror (execute_move_2 (mirror b)) ∧
      execute_move_0 b = transpose (execute_move_2 (transpose b)) ∧
      execute_move_1 b = transpose (execute_move_3 (transpose b))) :=
  ⟨row_move_result_eq_ref, fun b hb =>
    ⟨execute_move_3_eq_mirror b hb, execute_move_0_eq_transpose b hb,
     execute_move_1_eq_transpose b hb⟩⟩

theorem claim_C5_witness : (0x123 : Nat) < 2 ^ 64 ∧
    execute_move_3 0x123 = mirror (execute_move_2 (mirror 0x123)) :=
  ⟨by norm_num, (claim_C5.2 0x123 (by norm_num)).1⟩

/-- C6: Corrected. ai_count_empty returns the number of empty cells only
modulo 16: the bit trick accumulates the sixteen per-nibble indicators
into a 4-bit field, so the all-empty board returns 0, not 16. On every
board with at least one nonzero tile the count is exact. -/
theorem claim_C6 (b : Nat) (hb : b < 2 ^ 64) :
    ai_count_empty b = countEmptySpec b % 16 ∧
      (b ≠ 0 → ai_count_empty b = countEmptySpec b) :=
  ⟨count_empty_eq b hb, fun h => count_empty_exact b hb h⟩

theorem claim_C6_witness : (0x2000 : Nat) < 2 ^ 64 ∧
    ai_count_empty 0x2000 = countEmptySpec 0x2000 % 16 :=
  ⟨by norm_num, (claim_C6 0x2000 (by norm_num)).1⟩

/-- C6 counterexample: the empty board has 16 empty cells but
ai_count_empty returns 0. -/
theorem claim_C6_cex : ai_count_empty 0 = 0 ∧ countEmptySpec 0 = 16 := by
  decide

/-- C7: Confirmed. A direction whose move leaves the board unchanged
receives score 0 from the top-level driver (for every chance-node
evaluator f), and on a board where all four directions leave the board
unchanged ai_find_best_move returns the no-move sentinel -1. -/
theorem claim_C7 (f : Nat → ℚ) (b : Nat) :
    (∀ d : Int, do_execute_move d b = b → internal_score_toplevel_move f b d = 0) ∧
    ((∀ d : Int, d = 0 ∨ d = 1 ∨ d = 2 ∨ d = 3 → do_execute_move d b = b) →
      ai_find_best_move f b = -1) :=
  ⟨fun d h => score_zero_of_unchanged f b d h, fun h => find_best_none f b h⟩

theorem claim_C7_witness :
    internal_score_toplevel_move (fun _ => 0) 0x1212212112122121 2 = 0 ∧
    ai_find_best_move (fun _ => 0) 0x1212212112122121 = -1 :=
  ⟨(claim_C7 (fun _ => 0) 0x1212212112122121).1 2 (by decide),
   (claim_C7 (fun _ => 0) 0x1212212112122121).2 (by
      intro d hd
      rcases hd with rfl | rfl | rfl | rfl <;> decide)⟩

/-- C8: Confirmed. The per-call search depth limit equals
max(3, n - 2) where n is the number of distinct nonzero tile ranks on the
board; in particular n = 2 gives limit 3 and n = 7 gives limit 5. -/
theorem claim_C8 (b : Nat) (hb : b < 2 ^ 64) :
    state_depth_limit b = max 3 ((distinctRanksSpec b : Int) - 2) ∧
    (distinctRanksSpec b = 2 → state_depth_limit b = 3) ∧
    (distinctRanksSpec b = 7 → state_depth_limit b = 5) := by
  have h := count_distinct_tiles_eq b hb
  refine ⟨by unfold state_depth_limit; rw [h], ?_, ?_⟩
  · intro h2
    unfold state_depth_limit
    rw [h, h2]
    decide
  · intro h7
    unfold state_depth_limit
    rw [h, h7]
    decide

theorem claim_C8_witness : (0x12 : Nat) < 2 ^ 64 ∧
    state_depth_limit 0x12 = max 3 ((distinctRanksSpec 0x12 : Int) - 2) :=
  ⟨by norm_num, (claim_C8 0x12 (by norm_num)).1⟩

/-- C9: Confirmed. Every board reached by a board-changing move has at
least one empty cell, and on such a board the code divisor
count_empty(newboard) is nonzero (it equals the exact empty-cell count). -/
theorem claim_C9 (b : Nat) (hb : b < 2 ^ 64) (d : Int)
    (hd : d = 0 ∨ d = 1 ∨ d = 2 ∨ d = 3) (hne : do_execute_move d b ≠ b) :
    0 < countEmptySpec (do_execute_move d b) ∧
      count_empty (do_execute_move d b) ≠ 0 := by
  obtain ⟨h1, h2⟩ := changed_move_has_empty b hb d hd hne
  refine ⟨h1, ?_⟩
  rw [h2]
  omega

theorem claim_C9_witness : ((0x2 : Nat) < 2 ^ 64 ∧ do_execute_move 3 0x2 ≠ 0x2) ∧
    0 < countEmptySpec (do_execute_move 3 0x2) ∧
      count_empty (do_execute_move 3 0x2) ≠ 0 :=
  ⟨⟨by norm_num, by decide⟩,
   claim_C9 0x2 (by norm_num) 3 (Or.inr (Or.inr (Or.inr rfl))) (by decide)⟩

/-- C10: Confirmed. For every move code outside 0..3 the move dispatch
takes the default branch and ai_execute_move returns the all-ones value
0xFFFFFFFFFFFFFFFF, not the input board. -/
theorem claim_C10 (m : Int) (b : Nat) (h0 : m ≠ 0) (h1 : m ≠ 1) (h2 : m ≠ 2)
    (h3 : m ≠ 3) : ai_execute_move m b = 0xFFFFFFFFFFFFFFFF := by
  unfold ai_execute_move do_execute_move
  rw [if_neg h0, if_neg h1, if_neg h2, if_neg h3]

theorem claim_C10_witness : ai_execute_move 4 0 = 0xFFFFFFFFFFFFFFFF :=
  claim_C10 4 0 (by decide) (by decide) (by decide) (by decide)

end Ai2048